import Mathlib

/-!
# Verification of `testhelper/math.go`

Shallow embedding of the polynomial helpers used for Shamir-style secret sharing over the
scalar field of secp256k1 (`GeneratePolynomial`, `EvaluatePolynomial`,
`CalculateLagrangeCoeff`) and of the byte helpers (`Int64ToBytes`, `BytesToInt64`).

Conventions of the embedding:

* a `btcec.ModNScalar` is its value, a natural number below the group order `N`; every
  library operation is written with an explicit `% N`;
* a Go `int64` is an `Int`; conversions (`uint32(j)`, `uint64(num)`, `int64(u)`) and the one
  `int64` addition (`degree+1`) are written with explicit wrap-around;
* a Go call that can panic returns `Except Failure _`;
* a byte is a `Nat`, produced with an explicit `% 256`;
* `EvaluatePolynomial` is embedded from the same source on values, on values with a log of
  the library calls (for the operation count), on pointers that may be nil (for the failure
  cases), and on a heap in which a pointer is the index of a cell (for the frame and aliasing
  properties); the theorems relate these embeddings;
* the allocation limit of `make`, a constant of the Go run time, is the parameter `maxLen` of
  `GeneratePolynomial`.
-/

namespace Testhelper

/-! ## Modular exponentiation (used for the value-level model of the modular inverse) -/

/-- Square-and-multiply loop: `powModAux fuel b e n acc` is `acc * b ^ e` modulo `n` as soon as
`e ≤ fuel`. -/
def powModAux : Nat → Nat → Nat → Nat → Nat → Nat
  | 0, _, _, _, acc => acc
  | fuel + 1, b, e, n, acc =>
    if e = 0 then acc
    else powModAux fuel (b * b % n) (e / 2) n (if e % 2 = 1 then acc * b % n else acc)

/-- Modular power `b ^ e mod n`; the fuel `e` always suffices because the exponent is halved
at every step. -/
def powMod (b e n : Nat) : Nat := powModAux e b e n (1 % n)

/-! ## The scalar field -/

/-- Order of the secp256k1 group, the constant `btcec.S256().N`. -/
def N : Nat := 0xFFFFFFFFFFFFFFFFFFFFFFFFFFFFFFFEBAAEDCE6AF48A03BBFD25E8CD0364141

theorem N_pos : 0 < N := by decide

/-- Value of a `btcec.ModNScalar`: an integer that is always reduced modulo `N`. -/
structure ModNScalar where
  /-- The canonical representative in `[0, N)`. -/
  val : Nat
  /-- The library keeps every scalar reduced. -/
  reduced : val < N

namespace ModNScalar

instance : DecidableEq ModNScalar := fun a b =>
  if h : a.val = b.val then isTrue (by cases a; cases b; simp_all)
  else isFalse (fun e => h (by rw [e]))

/-- Reduction of a natural number into the scalar field. -/
def ofNat (n : Nat) : ModNScalar := ⟨n % N, Nat.mod_lt _ N_pos⟩

/-- Zero value of the type, the state of `new(btcec.ModNScalar)`. -/
def zero : ModNScalar := ofNat 0

/-- Library `SetInt(ui uint32)`: the scalar with value `ui` (a `uint32` is below `N`, so the
reduction is the identity on every value the library can receive). -/
def SetInt (ui : Nat) : ModNScalar := ofNat ui

/-- Library `Set(val)`: copy of the value. -/
def Set (v : ModNScalar) : ModNScalar := v

/-- Library `Add`: addition modulo `N`. -/
def Add (a b : ModNScalar) : ModNScalar := ofNat (a.val + b.val)

/-- Library `Mul`: multiplication modulo `N`. -/
def Mul (a b : ModNScalar) : ModNScalar := ofNat (a.val * b.val)

/-- Library `NegateVal`: additive inverse modulo `N`. -/
def NegateVal (v : ModNScalar) : ModNScalar := ofNat (N - v.val)

/-- Library `InverseNonConst`, which is `big.Int.ModInverse` modulo `N` followed by
`SetByteSlice`: the multiplicative inverse of a non-zero scalar; for the zero scalar
`ModInverse` finds no inverse, leaves its receiver (zero) untouched, and the result is the
zero scalar. No error is raised and nothing panics. The value is computed here as
`a ^ (N - 2) mod N`; `InverseNonConst_mul` and `InverseNonConst_zero` show that this is
that function. -/
def InverseNonConst (a : ModNScalar) : ModNScalar := ofNat (powMod a.val (N - 2) N)

/-- Big-endian value of a byte string. -/
def beNat (bs : List Nat) : Nat := bs.foldl (fun acc b => acc * 256 + b % 256) 0

/-- Library `SetByteSlice`: the slice is truncated to its first 32 bytes, read as a big-endian
unsigned integer and reduced modulo `N`. -/
def SetByteSlice (b : List Nat) : ModNScalar := ofNat (beNat (b.take 32))

end ModNScalar

open ModNScalar

/-! ## Go run-time model -/

/-- Run-time panics that the modelled functions can raise. -/
inductive Failure where
  /-- Slice index out of range. -/
  | indexOutOfRange
  /-- Method call through a nil pointer. -/
  | nilDereference
  /-- `make` with a length that the run time refuses: negative, or above its allocation
  limit. -/
  | makesliceLenOutOfRange
  deriving DecidableEq, Repr

instance instDecidableEqExcept {ε α : Type} [DecidableEq ε] [DecidableEq α] :
    DecidableEq (Except ε α)
  | .ok a, .ok b => if h : a = b then isTrue (by rw [h]) else isFalse (fun e => h (by cases e; rfl))
  | .error a, .error b =>
    if h : a = b then isTrue (by rw [h]) else isFalse (fun e => h (by cases e; rfl))
  | .ok _, .error _ => isFalse (fun e => by cases e)
  | .error _, .ok _ => isFalse (fun e => by cases e)

/-- Conversion `uint32(v)` of an `int64`: the low 32 bits. -/
def uint32 (v : Int) : Nat := (v % 4294967296).toNat

/-- Conversion `uint64(v)` of an `int64`: the two's-complement bit pattern. -/
def uint64 (v : Int) : Nat := (v % 18446744073709551616).toNat

/-- Conversion `int64(u)` of a `uint64`: the bit pattern read as a signed number. -/
def int64 (u : Nat) : Int :=
  if u % 18446744073709551616 < 9223372036854775808 then
    ((u % 18446744073709551616 : Nat) : Int)
  else ((u % 18446744073709551616 : Nat) : Int) - 18446744073709551616

/-- Result of an `int64` addition or increment: wrap-around into `[-2^63, 2^63)`. -/
def wrapInt64 (v : Int) : Int :=
  (v + 9223372036854775808) % 18446744073709551616 - 9223372036854775808

/-- Slice read `xs[i]`, panicking when `i` is out of range. -/
def index {α : Type} (xs : List α) (i : Int) : Except Failure α :=
  if i < 0 then .error .indexOutOfRange
  else match xs.get? i.toNat with
    | some v => .ok v
    | none => .error .indexOutOfRange

/-- Slice write `xs[i] = v`, panicking when `i` is out of range. -/
def setIndex {α : Type} (xs : List α) (i : Int) (v : α) : Except Failure (List α) :=
  if 0 ≤ i ∧ i.toNat < xs.length then .ok (xs.set i.toNat v) else .error .indexOutOfRange

/-- Allocation `make([]*btcec.ModNScalar, len)`: a slice of `len` nil pointers. The run time
refuses a negative length and a length whose size in bytes overflows or exceeds its allocation
limit. `maxLen` is the largest length that this platform and its memory grant to a slice of
pointers; the limit is a constant of the Go run time that is not part of the repository (on
linux/amd64 it is at most `2^48 / 8 = 2^45` entries), so it is a parameter here. -/
def make (maxLen : Nat) (len : Int) : Except Failure (List (Option ModNScalar)) :=
  if len < 0 ∨ (maxLen : Int) < len then .error .makesliceLenOutOfRange
  else .ok (List.replicate len.toNat none)

/-! ## `GeneratePolynomial` -/

/-- Loop of `big.Int.Bytes`: base-256 digits, most significant first. -/
def bytesAux : Nat → Nat → List Nat → List Nat
  | 0, _, acc => acc
  | fuel + 1, n, acc => if n = 0 then acc else bytesAux fuel (n / 256) (n % 256 :: acc)

/-- Library `big.Int.Bytes`: the minimal big-endian byte string of a non-negative integer
(empty for zero). The fuel `n` always suffices. -/
def bigIntBytes (n : Nat) : List Nat := bytesAux n n []

/-- What `GeneratePolynomial` changes outside its result: the number of calls made to
`rand.Int` and whether the test handle `s.T` has been marked as failed. -/
structure GenState where
  /-- Number of draws requested from `rand.Reader`. -/
  draws : Nat
  /-- Whether an assertion on `s.T` has failed. -/
  tFailed : Bool
  deriving DecidableEq, Repr

/-- Loop `for i := int64(0); i <= degree; i++` of `GeneratePolynomial`, by recursion on the
number of iterations that remain (`degree - i + 1`).

`rand k` is the outcome of the `k`-th call `rand.Int(rand.Reader, N)`: `some r` for a drawn
integer, `none` for `(nil, err)`. On an error `assert.Nil` marks `s.T` as failed and returns;
the next statement calls `Bytes` on the nil `*big.Int` and panics. -/
def genLoop (rand : Nat → Option Nat) :
    Nat → Int → GenState → List (Option ModNScalar) →
      GenState × Except Failure (List (Option ModNScalar))
  | 0, _, st, polynomial => (st, .ok polynomial)
  | remaining + 1, i, st, polynomial =>
    match rand st.draws with
    | none => (⟨st.draws + 1, true⟩, .error .nilDereference)
    | some r =>
      match setIndex polynomial i (some (SetByteSlice (bigIntBytes r))) with
      | .error e => (⟨st.draws + 1, st.tFailed⟩, .error e)
      | .ok polynomial' =>
        genLoop rand remaining (wrapInt64 (i + 1)) ⟨st.draws + 1, st.tFailed⟩ polynomial'

/-- Go `GeneratePolynomial(degree int64)`. The slice has `degree+1` entries (an `int64`
addition), each nil until the loop stores a pointer to a fresh scalar in it. `maxLen` is the
allocation limit of `make`. -/
def GeneratePolynomial (maxLen : Nat) (rand : Nat → Option Nat) (degree : Int) :
    GenState × Except Failure (List (Option ModNScalar)) :=
  match make maxLen (wrapInt64 (degree + 1)) with
  | .error e => (⟨0, false⟩, .error e)
  | .ok polynomial => genLoop rand (degree + 1).toNat 0 ⟨0, false⟩ polynomial

/-! ## `EvaluatePolynomial` -/

/-- Loop `for i := len(polynomial) - 2; i >= 0; i--` of `EvaluatePolynomial`, by recursion on
`i + 1`: each iteration performs `result.Mul(x)` and then `result.Add(polynomial[i])`. -/
def evalLoop (polynomial : List ModNScalar) (x : ModNScalar) :
    Nat → ModNScalar → Except Failure ModNScalar
  | 0, result => .ok result
  | i + 1, result =>
    match index polynomial (i : Int) with
    | .error e => .error e
    | .ok c => evalLoop polynomial x i (Add (Mul result x) c)

/-- Go `EvaluatePolynomial(polynomial, x)`: Horner evaluation, starting from the last
coefficient. The pointers in the slice and `x` are taken to be non-nil and are represented by
the scalars they point to; `EvaluatePolynomialPtr` is the same function on pointers that may
be nil. -/
def EvaluatePolynomial (polynomial : List ModNScalar) (x : ModNScalar) :
    Except Failure ModNScalar :=
  match index polynomial ((polynomial.length : Int) - 1) with
  | .error e => .error e
  | .ok top => evalLoop polynomial x (polynomial.length - 1) (Set top)

/-! ## `EvaluatePolynomial` on pointers that may be nil -/

/-- Read through a `*btcec.ModNScalar` that may be nil (`none`): a nil pointer panics. -/
def ptrLoad (p : Option ModNScalar) : Except Failure ModNScalar :=
  match p with
  | some v => .ok v
  | none => .error .nilDereference

/-- The loop of `EvaluatePolynomial` on pointers, by recursion on `i + 1`: `result.Mul(x)`
reads through `x`, then `polynomial[i]` is read and `result.Add` reads through it. -/
def evalLoopPtr (polynomial : List (Option ModNScalar)) (x : Option ModNScalar) :
    Nat → ModNScalar → Except Failure ModNScalar
  | 0, result => .ok result
  | i + 1, result =>
    match ptrLoad x with
    | .error e => .error e
    | .ok xv =>
      match index polynomial (i : Int) with
      | .error e => .error e
      | .ok c =>
        match ptrLoad c with
        | .error e => .error e
        | .ok cv => evalLoopPtr polynomial x i (Add (Mul result xv) cv)

/-- Go `EvaluatePolynomial(polynomial, x)` with the arguments as Go passes them: a slice of
pointers and a pointer, each of which may be nil. `result.Set(polynomial[len-1])` reads
through the last pointer. -/
def EvaluatePolynomialPtr (polynomial : List (Option ModNScalar)) (x : Option ModNScalar) :
    Except Failure ModNScalar :=
  match index polynomial ((polynomial.length : Int) - 1) with
  | .error e => .error e
  | .ok top =>
    match ptrLoad top with
    | .error e => .error e
    | .ok v => evalLoopPtr polynomial x (polynomial.length - 1) (Set v)

/-! ## `CalculateLagrangeCoeff` -/

/-- The scalar `x_j := new(btcec.ModNScalar).SetInt(uint32(j))`. -/
def embed (j : Int) : ModNScalar := SetInt (uint32 j)

/-- The scalar `numerator := NegateVal(x_j)`. -/
def numerator (j : Int) : ModNScalar := NegateVal (embed j)

/-- The scalar `denominator := NegateVal(x_j).Add(x_i)`. -/
def denominator (i j : Int) : ModNScalar := Add (NegateVal (embed j)) (embed i)

/-- One iteration of `for _, j := range set` on the accumulator `mul_j`. -/
def lagrangeStep (i : Int) (mul_j : ModNScalar) (j : Int) : ModNScalar :=
  if j ≠ i then Mul (Mul mul_j (numerator j)) (InverseNonConst (denominator i j))
  else mul_j

/-- Go `CalculateLagrangeCoeff(i, set)`. No statement of the body can panic and the Go
signature has no error result, so the embedding is a total function to scalars. -/
def CalculateLagrangeCoeff (i : Int) (set : List Int) : ModNScalar :=
  set.foldl (lagrangeStep i) (SetInt 1)

/-! ## `Int64ToBytes` and `BytesToInt64` -/

/-- Library `binary.BigEndian.PutUint64` on a fresh 8-byte slice: byte `k` is
`byte(v >> (56 - 8 k))`. -/
def PutUint64 (v : Nat) : List Nat :=
  [v / 72057594037927936 % 256, v / 281474976710656 % 256, v / 1099511627776 % 256,
   v / 4294967296 % 256, v / 16777216 % 256, v / 65536 % 256, v / 256 % 256, v % 256]

/-- Library `binary.BigEndian.Uint64`: the bounds check `_ = b[7]` panics on a slice shorter
than 8 bytes; otherwise the first 8 bytes are combined, most significant first. -/
def Uint64 (b : List Nat) : Except Failure Nat :=
  match b with
  | b0 :: b1 :: b2 :: b3 :: b4 :: b5 :: b6 :: b7 :: _ =>
    .ok (b7 % 256 + b6 % 256 * 256 + b5 % 256 * 65536 + b4 % 256 * 16777216
      + b3 % 256 * 4294967296 + b2 % 256 * 1099511627776 + b1 % 256 * 281474976710656
      + b0 % 256 * 72057594037927936)
  | _ => .error .indexOutOfRange

/-- Go `Int64ToBytes(num)`. -/
def Int64ToBytes (num : Int) : List Nat := PutUint64 (uint64 num)

/-- Go `BytesToInt64(bytes)`. -/
def BytesToInt64 (bytes : List Nat) : Except Failure Int :=
  match Uint64 bytes with
  | .error e => .error e
  | .ok u => .ok (int64 u)

/-! ## `EvaluatePolynomial` with a log of the library calls -/

/-- Library calls that `EvaluatePolynomial` makes on its accumulator `result`. -/
inductive Op where
  /-- The call `result.Set(polynomial[k])`. -/
  | set (k : Nat)
  /-- The call `result.Mul(x)`. -/
  | mul
  /-- The call `result.Add(polynomial[k])`. -/
  | add (k : Nat)
  deriving DecidableEq, Repr

/-- Whether a logged call is a field addition. -/
def Op.isAdd : Op → Bool
  | .add _ => true
  | _ => false

/-- The loop of `EvaluatePolynomial` (see `evalLoop`), recording each call on `result` in the
order in which it is made. -/
def evalLoopTraced (polynomial : List ModNScalar) (x : ModNScalar) :
    Nat → ModNScalar → List Op → Except Failure (ModNScalar × List Op)
  | 0, result, log => .ok (result, log)
  | i + 1, result, log =>
    match index polynomial (i : Int) with
    | .error e => .error e
    | .ok c =>
      evalLoopTraced polynomial x i (Add (Mul result x) c) (log ++ [Op.mul, Op.add i])

/-- Go `EvaluatePolynomial` (see `EvaluatePolynomial`), returning the log of the calls on
`result` next to the value. -/
def EvaluatePolynomialTraced (polynomial : List ModNScalar) (x : ModNScalar) :
    Except Failure (ModNScalar × List Op) :=
  match index polynomial ((polynomial.length : Int) - 1) with
  | .error e => .error e
  | .ok top =>
    evalLoopTraced polynomial x (polynomial.length - 1) (Set top) [Op.set (polynomial.length - 1)]

/-! ## `EvaluatePolynomial` on a heap -/

/-- Store of the scalars that pointers refer to: a `*btcec.ModNScalar` that is not nil is the
index of a cell, and reading through an index that is not a cell panics. The theorems on the
heap take every argument pointer to be a cell; nil arguments are the subject of
`EvaluatePolynomialPtr`. -/
abbrev Heap := List ModNScalar

/-- Read through a pointer; an index that is not a cell panics. -/
def heapLoad (h : Heap) (p : Nat) : Except Failure ModNScalar :=
  match h.get? p with
  | some v => .ok v
  | none => .error .nilDereference

/-- Allocation `new(btcec.ModNScalar)`: a cell that did not exist before, holding zero. -/
def heapNew (h : Heap) : Heap × Nat := (h ++ [zero], h.length)

/-- Call `s.Set(val)` through pointers: `*s = *val`. -/
def heapSet (h : Heap) (s val : Nat) : Except Failure Heap :=
  match heapLoad h val with
  | .error e => .error e
  | .ok v =>
    match heapLoad h s with
    | .error e => .error e
    | .ok _ => .ok (h.set s (Set v))

/-- Call `s.Mul(val)` through pointers: only the cell of `s` is written. -/
def heapMul (h : Heap) (s val : Nat) : Except Failure Heap :=
  match heapLoad h s with
  | .error e => .error e
  | .ok a =>
    match heapLoad h val with
    | .error e => .error e
    | .ok b => .ok (h.set s (Mul a b))

/-- Call `s.Add(val)` through pointers: only the cell of `s` is written. -/
def heapAdd (h : Heap) (s val : Nat) : Except Failure Heap :=
  match heapLoad h s with
  | .error e => .error e
  | .ok a =>
    match heapLoad h val with
    | .error e => .error e
    | .ok b => .ok (h.set s (Add a b))

/-- The loop of `EvaluatePolynomial` on the heap, by recursion on `i + 1`: `result.Mul(x)`,
then the read `polynomial[i]`, then `result.Add(polynomial[i])`. -/
def evalLoopHeap (polynomial : List Nat) (x result : Nat) : Nat → Heap → Except Failure Heap
  | 0, h => .ok h
  | i + 1, h =>
    match heapMul h result x with
    | .error e => .error e
    | .ok h1 =>
      match index polynomial (i : Int) with
      | .error e => .error e
      | .ok c =>
        match heapAdd h1 result c with
        | .error e => .error e
        | .ok h2 => evalLoopHeap polynomial x result i h2

/-- Go `EvaluatePolynomial` with its pointers made explicit: `polynomial` is a slice of
pointers, `x` a pointer, and the function returns the final heap and the pointer `result`. -/
def EvaluatePolynomialHeap (h : Heap) (polynomial : List Nat) (x : Nat) :
    Except Failure (Heap × Nat) :=
  match index polynomial ((polynomial.length : Int) - 1) with
  | .error e => .error e
  | .ok top =>
    match heapSet (heapNew h).1 (heapNew h).2 top with
    | .error e => .error e
    | .ok h1 =>
      match evalLoopHeap polynomial x (heapNew h).2 (polynomial.length - 1) h1 with
      | .error e => .error e
      | .ok h2 => .ok (h2, (heapNew h).2)

/-! ## Specification-side view of scalars -/

/-- The element of the field `ZMod N` that a scalar stands for. -/
def toZ (a : ModNScalar) : ZMod N := (a.val : ZMod N)

/-- Boolean check of a Lucas certificate: `a` has order exactly `p - 1` modulo `p`, given the
prime factors `fs` of `p - 1`. -/
def lucasCheck (p a : Nat) (fs : List Nat) : Bool :=
  decide (1 < p) && decide (powMod a (p - 1) p % p = 1) &&
    fs.all (fun q => decide (powMod a ((p - 1) / q) p % p ≠ 1))

/-! ## Correctness of modular exponentiation -/

theorem powModAux_modEq (fuel : Nat) : ∀ (b e n acc : Nat), e ≤ fuel →
    powModAux fuel b e n acc ≡ acc * b ^ e [MOD n] := by
  induction fuel with
  | zero =>
    intro b e n acc he
    have : e = 0 := by omega
    subst this
    simp [powModAux, Nat.ModEq]
  | succ k ih =>
    intro b e n acc he
    unfold powModAux
    by_cases h0 : e = 0
    · subst h0; simp [Nat.ModEq]
    · rw [if_neg h0]
      refine (ih _ _ _ _ (by omega)).trans ?_
      have hsplit : b ^ e = (b * b) ^ (e / 2) * b ^ (e % 2) := by
        rw [← pow_two, ← pow_mul, ← pow_add, Nat.div_add_mod]
      have hb : (b * b % n) ^ (e / 2) ≡ (b * b) ^ (e / 2) [MOD n] :=
        (Nat.mod_modEq _ _).pow _
      rw [hsplit]
      rcases Nat.mod_two_eq_zero_or_one e with h | h
      · rw [h, if_neg (by omega), pow_zero, mul_one]
        exact Nat.ModEq.mul_left _ hb
      · rw [h, if_pos rfl, pow_one]
        have := (Nat.mod_modEq (acc * b) n).mul hb
        refine this.trans ?_
        rw [show acc * ((b * b) ^ (e / 2) * b) = acc * b * (b * b) ^ (e / 2) by ring]

theorem powMod_modEq (b e n : Nat) : powMod b e n ≡ b ^ e [MOD n] := by
  unfold powMod
  refine (powModAux_modEq e b e n _ le_rfl).trans ?_
  simpa using (Nat.mod_modEq 1 n).mul_right (b ^ e)

theorem natCast_powMod (b e n : Nat) : ((powMod b e n : ℕ) : ZMod n) = (b : ZMod n) ^ e := by
  have h := (ZMod.eq_iff_modEq_nat n).2 (powMod_modEq b e n)
  rw [h]
  push_cast
  rfl

/-! ## The group order is prime (Lucas certificates) -/

theorem prime_of_lucasCheck (p a e : Nat) (fs : List Nat) (hfs : ∀ q ∈ fs, q.Prime)
    (hprod : p - 1 ∣ fs.prod ^ e) (hc : lucasCheck p a fs = true) : p.Prime := by
  simp only [lucasCheck, Bool.and_eq_true, decide_eq_true_eq, List.all_eq_true] at hc
  obtain ⟨⟨hp, ha⟩, hq⟩ := hc
  have h1 : 1 % p = 1 := Nat.mod_eq_of_lt hp
  have key : ∀ k, ((a : ZMod p) ^ k = 1) ↔ powMod a k p % p = 1 := by
    intro k
    rw [← natCast_powMod, ← Nat.cast_one, ZMod.eq_iff_modEq_nat, Nat.ModEq, h1]
  refine lucas_primality p (a : ZMod p) ((key _).2 ha) ?_
  intro q hqp hqd hone
  have hdvd : q ∣ fs.prod := hqp.dvd_of_dvd_pow (hqd.trans hprod)
  obtain ⟨r, hr, hqr⟩ := (Prime.dvd_prod_iff hqp.prime).1 hdvd
  have : q = r := (Nat.prime_dvd_prime_iff_eq hqp (hfs r hr)).1 hqr
  subst this
  have := hq q hr
  simp only [ne_eq, decide_not, Bool.not_eq_true', decide_eq_false_iff_not] at this
  exact this ((key _).1 hone)

theorem prime_16699 : Nat.Prime 16699 := by
  refine prime_of_lucasCheck _ 3 2 [2, 3, 11, 23] ?_ ?_ (by decide!)
  · intro q hq
    simp only [List.mem_cons, List.mem_singleton, List.not_mem_nil, or_false] at hq
    rcases hq with rfl | rfl | rfl | rfl
    · norm_num
    · norm_num
    · norm_num
    · norm_num
  · norm_num

theorem prime_85831 : Nat.Prime 85831 := by
  refine prime_of_lucasCheck _ 3 1 [2, 3, 5, 2861] ?_ ?_ (by decide!)
  · intro q hq
    simp only [List.mem_cons, List.mem_singleton, List.not_mem_nil, or_false] at hq
    rcases hq with rfl | rfl | rfl | rfl
    · norm_num
    · norm_num
    · norm_num
    · norm_num
  · norm_num

theorem prime_28181 : Nat.Prime 28181 := by
  refine prime_of_lucasCheck _ 2 2 [2, 5, 1409] ?_ ?_ (by decide!)
  · intro q hq
    simp only [List.mem_cons, List.mem_singleton, List.not_mem_nil, or_false] at hq
    rcases hq with rfl | rfl | rfl
    · norm_num
    · norm_num
    · norm_num
  · norm_num

theorem prime_120233 : Nat.Prime 120233 := by
  refine prime_of_lucasCheck _ 3 3 [2, 7, 19, 113] ?_ ?_ (by decide!)
  · intro q hq
    simp only [List.mem_cons, List.mem_singleton, List.not_mem_nil, or_false] at hq
    rcases hq with rfl | rfl | rfl | rfl
    · norm_num
    · norm_num
    · norm_num
    · norm_num
  · norm_num

theorem prime_305873 : Nat.Prime 305873 := by
  refine prime_of_lucasCheck _ 3 4 [2, 7, 2731] ?_ ?_ (by decide!)
  · intro q hq
    simp only [List.mem_cons, List.mem_singleton, List.not_mem_nil, or_false] at hq
    rcases hq with rfl | rfl | rfl
    · norm_num
    · norm_num
    · norm_num
  · norm_num

theorem prime_1627771 : Nat.Prime 1627771 := by
  refine prime_of_lucasCheck _ 3 1 [2, 3, 5, 29, 1871] ?_ ?_ (by decide!)
  · intro q hq
    simp only [List.mem_cons, List.mem_singleton, List.not_mem_nil, or_false] at hq
    rcases hq with rfl | rfl | rfl | rfl | rfl
    · norm_num
    · norm_num
    · norm_num
    · norm_num
    · norm_num
  · norm_num

theorem prime_4681609 : Nat.Prime 4681609 := by
  refine prime_of_lucasCheck _ 23 3 [2, 3, 97, 2011] ?_ ?_ (by decide!)
  · intro q hq
    simp only [List.mem_cons, List.mem_singleton, List.not_mem_nil, or_false] at hq
    rcases hq with rfl | rfl | rfl | rfl
    · norm_num
    · norm_num
    · norm_num
    · norm_num
  · norm_num

theorem prime_44706919 : Nat.Prime 44706919 := by
  refine prime_of_lucasCheck _ 6 1 [2, 3, 797, 9349] ?_ ?_ (by decide!)
  · intro q hq
    simp only [List.mem_cons, List.mem_singleton, List.not_mem_nil, or_false] at hq
    rcases hq with rfl | rfl | rfl | rfl
    · norm_num
    · norm_num
    · norm_num
    · norm_num
  · norm_num

theorem prime_545358713 : Nat.Prime 545358713 := by
  refine prime_of_lucasCheck _ 5 3 [2, 41, 59, 28181] ?_ ?_ (by decide!)
  · intro q hq
    simp only [List.mem_cons, List.mem_singleton, List.not_mem_nil, or_false] at hq
    rcases hq with rfl | rfl | rfl | rfl
    · norm_num
    · norm_num
    · norm_num
    · exact prime_28181
  · norm_num

theorem prime_297159362677 : Nat.Prime 297159362677 := by
  refine prime_of_lucasCheck _ 2 2 [2, 3, 11, 461, 1627771] ?_ ?_ (by decide!)
  · intro q hq
    simp only [List.mem_cons, List.mem_singleton, List.not_mem_nil, or_false] at hq
    rcases hq with rfl | rfl | rfl | rfl | rfl
    · norm_num
    · norm_num
    · norm_num
    · norm_num
    · exact prime_1627771
  · norm_num

theorem prime_29047611873442575647497758179 : Nat.Prime 29047611873442575647497758179 := by
  refine prime_of_lucasCheck _ 2 1 [2, 293, 305873, 545358713, 297159362677] ?_ ?_ (by decide!)
  · intro q hq
    simp only [List.mem_cons, List.mem_singleton, List.not_mem_nil, or_false] at hq
    rcases hq with rfl | rfl | rfl | rfl | rfl
    · norm_num
    · norm_num
    · exact prime_305873
    · exact prime_545358713
    · exact prime_297159362677
  · norm_num

theorem prime_341948486974166000522343609283189 :
    Nat.Prime 341948486974166000522343609283189 := by
  refine prime_of_lucasCheck _ 2 3 [2, 3, 109, 29047611873442575647497758179] ?_ ?_ (by decide!)
  · intro q hq
    simp only [List.mem_cons, List.mem_singleton, List.not_mem_nil, or_false] at hq
    rcases hq with rfl | rfl | rfl | rfl
    · norm_num
    · norm_num
    · norm_num
    · exact prime_29047611873442575647497758179
  · norm_num

theorem prime_174723607534414371449 : Nat.Prime 174723607534414371449 := by
  refine prime_of_lucasCheck _ 3 3 [2, 17, 59, 4051, 120233, 44706919] ?_ ?_ (by decide!)
  · intro q hq
    simp only [List.mem_cons, List.mem_singleton, List.not_mem_nil, or_false] at hq
    rcases hq with rfl | rfl | rfl | rfl | rfl | rfl
    · norm_num
    · norm_num
    · norm_num
    · norm_num
    · exact prime_120233
    · exact prime_44706919
  · norm_num

theorem prime_107361793816595537 : Nat.Prime 107361793816595537 := by
  refine prime_of_lucasCheck _ 3 4 [2, 16699, 85831, 4681609] ?_ ?_ (by decide!)
  · intro q hq
    simp only [List.mem_cons, List.mem_singleton, List.not_mem_nil, or_false] at hq
    rcases hq with rfl | rfl | rfl | rfl
    · norm_num
    · exact prime_16699
    · exact prime_85831
    · exact prime_4681609
  · norm_num

theorem N_prime : Nat.Prime N := by
  unfold N
  refine prime_of_lucasCheck _ 7 6 [2, 3, 149, 631, 107361793816595537, 174723607534414371449,
    341948486974166000522343609283189] ?_ ?_ (by decide!)
  · intro q hq
    simp only [List.mem_cons, List.mem_singleton, List.not_mem_nil, or_false] at hq
    rcases hq with rfl | rfl | rfl | rfl | rfl | rfl | rfl
    · norm_num
    · norm_num
    · norm_num
    · norm_num
    · exact prime_107361793816595537
    · exact prime_174723607534414371449
    · exact prime_341948486974166000522343609283189
  · norm_num

instance instFactPrimeN : Fact (Nat.Prime N) := ⟨N_prime⟩

/-! ## Scalars as field elements -/

theorem toZ_ofNat (n : Nat) : toZ (ofNat n) = (n : ZMod N) := by
  simp [toZ, ofNat]

theorem toZ_injective {a b : ModNScalar} (h : toZ a = toZ b) : a = b := by
  have h2 := (ZMod.natCast_eq_natCast_iff' a.val b.val N).1 h
  rw [Nat.mod_eq_of_lt a.reduced, Nat.mod_eq_of_lt b.reduced] at h2
  cases a; cases b; simp_all

theorem val_eq_of_toZ {a : ModNScalar} {n : Nat} (h : toZ a = (n : ZMod N)) :
    a.val = n % N := by
  have h2 := (ZMod.natCast_eq_natCast_iff' a.val n N).1 h
  rwa [Nat.mod_eq_of_lt a.reduced] at h2

theorem toZ_SetInt (ui : Nat) : toZ (SetInt ui) = (ui : ZMod N) := toZ_ofNat ui

theorem toZ_zero : toZ zero = 0 := by simp [zero, toZ_ofNat]

theorem toZ_Add (a b : ModNScalar) : toZ (Add a b) = toZ a + toZ b := by
  rw [ModNScalar.Add, toZ_ofNat, Nat.cast_add]
  rfl

theorem toZ_Mul (a b : ModNScalar) : toZ (Mul a b) = toZ a * toZ b := by
  rw [ModNScalar.Mul, toZ_ofNat, Nat.cast_mul]
  rfl

theorem toZ_NegateVal (v : ModNScalar) : toZ (NegateVal v) = - toZ v := by
  rw [NegateVal, toZ_ofNat, Nat.cast_sub v.reduced.le, ZMod.natCast_self, zero_sub]
  rfl

theorem toZ_InverseNonConst (a : ModNScalar) : toZ (InverseNonConst a) = (toZ a)⁻¹ := by
  rw [InverseNonConst, toZ_ofNat, natCast_powMod]
  change (toZ a) ^ (N - 2) = (toZ a)⁻¹
  by_cases h : toZ a = 0
  · rw [h, inv_zero]
    exact zero_pow (by decide)
  · have h1 : (toZ a) ^ (N - 1) = 1 := ZMod.pow_card_sub_one_eq_one h
    have h2 : (toZ a) ^ (N - 2) * toZ a = 1 := by
      rw [← pow_succ]
      exact h1
    exact eq_inv_of_mul_eq_one_left h2

/-- The model of `InverseNonConst` returns the multiplicative inverse of a non-zero scalar. -/
theorem InverseNonConst_mul (a : ModNScalar) (h : a.val ≠ 0) :
    Mul a (InverseNonConst a) = SetInt 1 := by
  apply toZ_injective
  rw [toZ_Mul, toZ_InverseNonConst, toZ_SetInt, Nat.cast_one]
  refine mul_inv_cancel₀ ?_
  intro h0
  have := val_eq_of_toZ (n := 0) (by simpa using h0)
  simp at this
  exact h this

/-- The model of `InverseNonConst` maps the zero scalar to the zero scalar. -/
theorem InverseNonConst_zero : InverseNonConst zero = zero := by
  apply toZ_injective
  rw [toZ_InverseNonConst, toZ_zero, inv_zero]

/-! ## `EvaluatePolynomial`: Horner's method -/

theorem index_natCast {α : Type} (xs : List α) (k : Nat) (d : α) (h : k < xs.length) :
    index xs (k : Int) = .ok (xs.getD k d) := by
  unfold index
  rw [if_neg (by omega), Int.toNat_ofNat, List.get?_eq_get h, List.getD_eq_getElem xs d h]
  rfl

theorem index_out_of_range {α : Type} (xs : List α) (i : Int) (h : i < 0) :
    index xs i = .error .indexOutOfRange := by
  unfold index
  rw [if_pos h]

/-- Loop invariant of Horner's method: running the loop from index `k - 1` down to `0` on the
accumulator `r` returns `r * x ^ k + (a_0 + a_1 x + ... + a_(k-1) x^(k-1))`. -/
theorem evalLoop_spec (polynomial : List ModNScalar) (x : ModNScalar) :
    ∀ (k : Nat) (r : ModNScalar), k ≤ polynomial.length →
      ∃ r', evalLoop polynomial x k r = .ok r' ∧
        toZ r' = toZ r * toZ x ^ k
          + ∑ j in Finset.range k, toZ (polynomial.getD j zero) * toZ x ^ j := by
  intro k
  induction k with
  | zero =>
    intro r _
    exact ⟨r, rfl, by simp⟩
  | succ k ih =>
    intro r hk
    obtain ⟨r', hr', hval⟩ := ih (ModNScalar.Add (ModNScalar.Mul r x) (polynomial.getD k zero))
      (by omega)
    refine ⟨r', ?_, ?_⟩
    · rw [evalLoop, index_natCast polynomial k zero (by omega)]
      exact hr'
    · rw [hval, toZ_Add, toZ_Mul, Finset.sum_range_succ]
      ring

/-- Value returned by `EvaluatePolynomial` on a non-empty polynomial, as a field element. -/
theorem EvaluatePolynomial_toZ (polynomial : List ModNScalar) (x : ModNScalar)
    (h : polynomial ≠ []) :
    ∃ r, EvaluatePolynomial polynomial x = .ok r ∧
      toZ r = ∑ j in Finset.range polynomial.length,
        toZ (polynomial.getD j zero) * toZ x ^ j := by
  have hlen : 0 < polynomial.length := List.length_pos.2 h
  obtain ⟨r, hr, hval⟩ := evalLoop_spec polynomial x (polynomial.length - 1)
    (polynomial.getD (polynomial.length - 1) zero) (by omega)
  refine ⟨r, ?_, ?_⟩
  · have hidx : ((polynomial.length : Int) - 1) = ((polynomial.length - 1 : Nat) : Int) := by
      omega
    rw [EvaluatePolynomial, hidx, index_natCast polynomial _ zero (by omega)]
    exact hr
  · rw [hval]
    have hsplit : polynomial.length = (polynomial.length - 1) + 1 := by omega
    conv_rhs => rw [hsplit, Finset.sum_range_succ]
    ring

/-- Claim C2 (Horner correctness). For every non-empty coefficient list `[a_0, ..., a_t]` and
every scalar `x`, `EvaluatePolynomial` returns the scalar whose value is
`a_0 + a_1 x + ... + a_t x^t` reduced modulo `N`; in particular the coefficients `[3, 5, 2]`
at `x = 2` give `21`. -/
theorem EvaluatePolynomial_horner :
    (∀ (polynomial : List ModNScalar) (x : ModNScalar), polynomial ≠ [] →
      ∃ r, EvaluatePolynomial polynomial x = .ok r ∧
        r.val = (∑ k in Finset.range polynomial.length,
          (polynomial.getD k zero).val * x.val ^ k) % N) ∧
    (∃ r, EvaluatePolynomial [SetInt 3, SetInt 5, SetInt 2] (SetInt 2) = .ok r ∧ r.val = 21) := by
  constructor
  · intro polynomial x h
    obtain ⟨r, hr, hval⟩ := EvaluatePolynomial_toZ polynomial x h
    refine ⟨r, hr, val_eq_of_toZ ?_⟩
    rw [hval]
    push_cast
    rfl
  · exact ⟨SetInt 21, by decide!, by decide!⟩

/-- Instance of claim C2 at the polynomial `3 + 5 x + 2 x^2` and the point `x = 2`. -/
theorem EvaluatePolynomial_horner_witness :
    [SetInt 3, SetInt 5, SetInt 2] ≠ [] ∧
    ∃ r, EvaluatePolynomial [SetInt 3, SetInt 5, SetInt 2] (SetInt 2) = .ok r ∧
      r.val = (∑ k in Finset.range [SetInt 3, SetInt 5, SetInt 2].length,
        ([SetInt 3, SetInt 5, SetInt 2].getD k zero).val * (SetInt 2).val ^ k) % N :=
  ⟨by decide, EvaluatePolynomial_horner.1 [SetInt 3, SetInt 5, SetInt 2] (SetInt 2) (by decide)⟩

/-! ## `EvaluatePolynomial` on pointers: empty slices and nil pointers -/

theorem index_map {α β : Type} (f : α → β) (xs : List α) (i : Int) :
    index (xs.map f) i = (index xs i).map f := by
  unfold index
  by_cases h : i < 0
  · rw [if_pos h, if_pos h]
    rfl
  · rw [if_neg h, if_neg h]
    simp only [List.get?_eq_getElem?, List.getElem?_map]
    cases xs[i.toNat]? <;> rfl

/-- On non-nil pointers the loop on pointers is the loop on values. -/
theorem evalLoopPtr_some (polynomial : List ModNScalar) (x : ModNScalar) :
    ∀ (k : Nat) (r : ModNScalar),
      evalLoopPtr (polynomial.map some) (some x) k r = evalLoop polynomial x k r := by
  intro k
  induction k with
  | zero => intro r; rfl
  | succ k ih =>
    intro r
    rw [evalLoopPtr, evalLoop, index_map]
    cases index polynomial (k : Int) with
    | error e => rfl
    | ok c => exact ih _

/-- On non-nil pointers `EvaluatePolynomialPtr` is `EvaluatePolynomial` on the values. -/
theorem EvaluatePolynomialPtr_some (polynomial : List ModNScalar) (x : ModNScalar) :
    EvaluatePolynomialPtr (polynomial.map some) (some x) = EvaluatePolynomial polynomial x := by
  rw [EvaluatePolynomialPtr, EvaluatePolynomial, List.length_map, index_map]
  cases index polynomial ((polynomial.length : Int) - 1) with
  | error e => rfl
  | ok top => exact evalLoopPtr_some polynomial x _ _

/-- The loop on pointers panics when it meets a nil coefficient pointer. -/
theorem evalLoopPtr_nil (polynomial : List (Option ModNScalar)) (x : Option ModNScalar) :
    ∀ (k : Nat) (r : ModNScalar), k ≤ polynomial.length →
      (∃ j, j < k ∧ polynomial[j]? = some none) →
      evalLoopPtr polynomial x k r = .error .nilDereference := by
  intro k
  induction k with
  | zero =>
    intro r _ hex
    obtain ⟨j, hj, _⟩ := hex
    omega
  | succ k ih =>
    intro r hk hex
    rw [evalLoopPtr]
    cases x with
    | none => rfl
    | some xv =>
      simp only [ptrLoad]
      rw [index_natCast polynomial k none (by omega)]
      simp only
      cases hc : polynomial.getD k none with
      | none => rfl
      | some cv =>
        simp only
        obtain ⟨j, hj, hnil⟩ := hex
        have hne : j ≠ k := by
          intro h
          rw [h, List.getElem?_eq_getElem (by omega)] at hnil
          rw [List.getD_eq_getElem polynomial none (by omega)] at hc
          rw [hc] at hnil
          exact absurd hnil (by simp)
        exact ih _ (by omega) ⟨j, by omega, hnil⟩

/-- Claim C6, counterexample. The non-empty slice `[nil]` does not evaluate: the call
`result.Set(polynomial[0])` reads through the nil pointer and panics; and on the empty slice
the failure is the run-time panic of the read `polynomial[-1]`, not an error value. -/
theorem EvaluatePolynomial_nil_counterexample :
    ([none] : List (Option ModNScalar)) ≠ [] ∧
    EvaluatePolynomialPtr [none] (some (SetInt 2)) = .error .nilDereference ∧
    EvaluatePolynomialPtr [] (some (SetInt 2)) = .error .indexOutOfRange := by
  refine ⟨by decide, by decide!, by decide!⟩

/-- Claim C6, amended. On an empty coefficient sequence `EvaluatePolynomial` fails for every
`x`, by the run-time panic of the out-of-range read `polynomial[len(polynomial)-1]`; on every
non-empty sequence of non-nil pointers, with `x` non-nil, it returns a scalar (the one computed
on the values); and on every sequence that holds a nil pointer it panics on the nil pointer. -/
theorem EvaluatePolynomial_empty_panics :
    (∀ x : Option ModNScalar, EvaluatePolynomialPtr [] x = .error .indexOutOfRange) ∧
    (∀ (polynomial : List ModNScalar) (x : ModNScalar), polynomial ≠ [] →
      ∃ r, EvaluatePolynomialPtr (polynomial.map some) (some x) = .ok r ∧
        EvaluatePolynomial polynomial x = .ok r) ∧
    (∀ (polynomial : List (Option ModNScalar)) (x : Option ModNScalar), none ∈ polynomial →
      EvaluatePolynomialPtr polynomial x = .error .nilDereference) := by
  refine ⟨?_, ?_, ?_⟩
  · intro x
    rw [EvaluatePolynomialPtr, index_out_of_range _ _ (by simp)]
  · intro polynomial x h
    obtain ⟨r, hr, _⟩ := EvaluatePolynomial_toZ polynomial x h
    exact ⟨r, by rw [EvaluatePolynomialPtr_some, hr], hr⟩
  · intro polynomial x hmem
    obtain ⟨j, hj, hnil⟩ := List.mem_iff_getElem.1 hmem
    have hidx : ((polynomial.length : Int) - 1) = ((polynomial.length - 1 : Nat) : Int) := by
      omega
    rw [EvaluatePolynomialPtr, hidx, index_natCast polynomial _ none (by omega)]
    simp only
    cases htop : polynomial.getD (polynomial.length - 1) none with
    | none => rfl
    | some v =>
      simp only [ptrLoad]
      have hne : j ≠ polynomial.length - 1 := by
        intro h
        rw [List.getD_eq_getElem polynomial none (by omega)] at htop
        subst h
        rw [hnil] at htop
        exact absurd htop (by simp)
      exact evalLoopPtr_nil polynomial x _ _ (by omega)
        ⟨j, by omega, by rw [List.getElem?_eq_getElem hj, hnil]⟩

/-- Instance of the amended claim C6 at the one-coefficient polynomial `[7]` with `x = 2`, and
at the slice `[3, nil]` with `x = 2`. -/
theorem EvaluatePolynomial_empty_panics_witness :
    ([SetInt 7] ≠ [] ∧ none ∈ [some (SetInt 3), none]) ∧
    (∃ r, EvaluatePolynomialPtr ([SetInt 7].map some) (some (SetInt 2)) = .ok r ∧
      EvaluatePolynomial [SetInt 7] (SetInt 2) = .ok r) ∧
    EvaluatePolynomialPtr [some (SetInt 3), none] (some (SetInt 2)) = .error .nilDereference :=
  ⟨⟨by decide, by decide⟩,
    EvaluatePolynomial_empty_panics.2.1 [SetInt 7] (SetInt 2) (by decide),
    EvaluatePolynomial_empty_panics.2.2 [some (SetInt 3), none] (some (SetInt 2)) (by decide)⟩

/-! ## `CalculateLagrangeCoeff`: the loop as a product -/

/-- Field element embedded for the index `j`: the value of `uint32(j)`. -/
theorem toZ_embed (j : Int) : toZ (embed j) = ((uint32 j : ℕ) : ZMod N) := by
  rw [embed, toZ_SetInt]

theorem toZ_numerator (j : Int) : toZ (numerator j) = - toZ (embed j) := by
  rw [numerator, toZ_NegateVal]

theorem toZ_denominator (i j : Int) : toZ (denominator i j) = toZ (embed i) - toZ (embed j) := by
  rw [denominator, toZ_Add, toZ_NegateVal]
  ring

theorem toZ_lagrangeStep_ne (i j : Int) (acc : ModNScalar) (h : j ≠ i) :
    toZ (lagrangeStep i acc j)
      = toZ acc * (- toZ (embed j) * (toZ (embed i) - toZ (embed j))⁻¹) := by
  rw [lagrangeStep, if_pos h, toZ_Mul, toZ_Mul, toZ_InverseNonConst, toZ_numerator,
    toZ_denominator]
  ring

theorem lagrangeStep_self (i : Int) (acc : ModNScalar) : lagrangeStep i acc i = acc := by
  rw [lagrangeStep, if_neg (by simp)]

/-- The accumulator after the loop is the initial accumulator times the product, over the
entries `j ≠ i` of the list, of `(-x_j) * (x_i - x_j)⁻¹`. -/
theorem toZ_foldl_lagrangeStep (i : Int) (set : List Int) :
    ∀ acc : ModNScalar, toZ (set.foldl (lagrangeStep i) acc)
      = toZ acc * ((set.filter (fun j => j ≠ i)).map
          (fun j => - toZ (embed j) * (toZ (embed i) - toZ (embed j))⁻¹)).prod := by
  induction set with
  | nil => intro acc; simp
  | cons a l ih =>
    intro acc
    rw [List.foldl_cons, ih]
    by_cases h : a = i
    · subst h
      rw [lagrangeStep_self]
      simp
    · rw [toZ_lagrangeStep_ne i a acc h, List.filter_cons_of_pos (by simpa using h),
        List.map_cons, List.prod_cons]
      ring

theorem toZ_CalculateLagrangeCoeff (i : Int) (set : List Int) :
    toZ (CalculateLagrangeCoeff i set)
      = ((set.filter (fun j => j ≠ i)).map
          (fun j => - toZ (embed j) * (toZ (embed i) - toZ (embed j))⁻¹)).prod := by
  rw [CalculateLagrangeCoeff, toZ_foldl_lagrangeStep, toZ_SetInt, Nat.cast_one, one_mul]

/-- For an index that fits in 32 bits the embedded field element is the index itself. -/
theorem toZ_embed_of_range (j : Int) (h0 : 0 ≤ j) (h1 : j ≤ 4294967295) :
    toZ (embed j) = ((j : ℤ) : ZMod N) := by
  rw [toZ_embed]
  have h : ((uint32 j : ℕ) : ℤ) = j := by
    unfold uint32
    omega
  conv_rhs => rw [← h]
  simp

/-- Entries equal to `i` do not change the accumulator. -/
theorem foldl_lagrangeStep_erase (i : Int) (set : List Int) :
    ∀ acc : ModNScalar,
      (set.erase i).foldl (lagrangeStep i) acc = set.foldl (lagrangeStep i) acc := by
  induction set with
  | nil => intro acc; rfl
  | cons a l ih =>
    intro acc
    by_cases h : a = i
    · subst h
      rw [List.erase_cons_head, List.foldl_cons, lagrangeStep_self]
    · rw [List.erase_cons_tail (by simpa using h), List.foldl_cons, List.foldl_cons, ih]

/-- Claim C3 (Lagrange formula). For every index `i` in `[0, 2^32 - 1]` and every list `set` of
indices in `[0, 2^32 - 1]` (pairwise distinct or not), `CalculateLagrangeCoeff i set` is, as an
element of `Z_N`, the product over the entries `j ≠ i` of `set` of `(0 - j) / (i - j)`, the
Lagrange basis coefficient `L_i(0)`. -/
theorem CalculateLagrangeCoeff_formula (i : Int) (set : List Int)
    (hi : 0 ≤ i ∧ i ≤ 4294967295) (hset : ∀ j ∈ set, 0 ≤ j ∧ j ≤ 4294967295) :
    toZ (CalculateLagrangeCoeff i set)
      = ((set.filter (fun j => j ≠ i)).map
          (fun (j : Int) => (0 - (j : ZMod N)) / ((i : ZMod N) - (j : ZMod N)))).prod := by
  rw [toZ_CalculateLagrangeCoeff]
  congr 1
  apply List.map_congr_left
  intro j hj
  have hj' := hset j (List.mem_of_mem_filter hj)
  rw [toZ_embed_of_range j hj'.1 hj'.2, toZ_embed_of_range i hi.1 hi.2, zero_sub, div_eq_mul_inv]

/-- Instance of claim C3 at `i = 1` and `set = [1, 2, 3]`, where the coefficient is
`(-2)(-3) / ((1 - 2)(1 - 3)) = 3`. -/
theorem CalculateLagrangeCoeff_formula_witness :
    ((0 : Int) ≤ 1 ∧ (1 : Int) ≤ 4294967295) ∧
    (∀ j ∈ ([1, 2, 3] : List Int), 0 ≤ j ∧ j ≤ 4294967295) ∧
    CalculateLagrangeCoeff 1 [1, 2, 3] = SetInt 3 ∧
    toZ (CalculateLagrangeCoeff 1 [1, 2, 3])
      = (([1, 2, 3].filter (fun j => j ≠ (1 : Int))).map
          (fun (j : Int) => (0 - (j : ZMod N)) / (((1 : Int) : ZMod N) - (j : ZMod N)))).prod :=
  ⟨by decide, by decide, by decide!,
    CalculateLagrangeCoeff_formula 1 [1, 2, 3] (by decide) (by decide)⟩

/-- Claim C4, counterexample. With `i = 1` and `set = [1, 1, 2]`, in which the index `1` occurs
twice, `CalculateLagrangeCoeff` does not fail: both occurrences are skipped by the guard
`j != i` and the call returns the coefficient `2`, the same as for `set = [1, 2]`. -/
theorem CalculateLagrangeCoeff_duplicate_counterexample :
    List.count (1 : Int) [1, 1, 2] = 2 ∧
    CalculateLagrangeCoeff 1 [1, 1, 2] = SetInt 2 ∧
    CalculateLagrangeCoeff 1 [1, 2] = SetInt 2 := by
  refine ⟨by decide, by decide!, by decide!⟩

/-- Claim C4, amended. For every index `i` and every set in which `i` occurs (at least) twice,
`CalculateLagrangeCoeff i set` returns a coefficient, namely the one it returns for the set
that is two entries shorter because two occurrences of `i` have been removed: the occurrences
of `i` are skipped, not rejected. -/
theorem CalculateLagrangeCoeff_duplicate_skipped (i : Int) (set : List Int)
    (h : 2 ≤ set.count i) :
    ((set.erase i).erase i).length + 2 = set.length ∧
    CalculateLagrangeCoeff i set = CalculateLagrangeCoeff i ((set.erase i).erase i) := by
  constructor
  · have h1 : i ∈ set := List.count_pos_iff.1 (by omega)
    have h2 : i ∈ set.erase i := by
      apply List.count_pos_iff.1
      rw [List.count_erase_self]
      omega
    have hpos : 0 < set.length := List.length_pos_of_mem h1
    have hpos2 : 0 < (set.erase i).length := List.length_pos_of_mem h2
    rw [List.length_erase_of_mem h2, List.length_erase_of_mem h1] at *
    omega
  · rw [CalculateLagrangeCoeff, CalculateLagrangeCoeff, foldl_lagrangeStep_erase,
      foldl_lagrangeStep_erase]

/-- Instance of the amended claim C4 at `i = 1` and `set = [1, 2, 1, 3]`. -/
theorem CalculateLagrangeCoeff_duplicate_skipped_witness :
    2 ≤ List.count (1 : Int) [1, 2, 1, 3] ∧
    ((([1, 2, 1, 3] : List Int).erase 1).erase 1).length + 2 = [1, 2, 1, 3].length ∧
    CalculateLagrangeCoeff 1 [1, 2, 1, 3]
      = CalculateLagrangeCoeff 1 (([1, 2, 1, 3].erase 1).erase 1) :=
  ⟨by decide, CalculateLagrangeCoeff_duplicate_skipped 1 [1, 2, 1, 3] (by decide)⟩

/-- Claim C5, counterexample. With `i = 1` and `set = [2^32 + 1]` the entry differs from `i`,
its embedded value `uint32(2^32 + 1) = 1` makes the denominator `i - j` zero, and
`CalculateLagrangeCoeff` returns the scalar `0` instead of failing. -/
theorem CalculateLagrangeCoeff_zero_denominator_counterexample :
    (4294967297 : Int) ∈ ([4294967297] : List Int) ∧ (4294967297 : Int) ≠ 1 ∧
    denominator 1 4294967297 = zero ∧
    CalculateLagrangeCoeff 1 [4294967297] = zero := by
  refine ⟨by decide, by decide, by decide!, by decide!⟩

/-- Claim C5, amended. For every `i` and `set` such that some entry `j ≠ i` of `set` has a zero
denominator `x_i - x_j` (the embedded values collide modulo `N`), `CalculateLagrangeCoeff i set`
returns the zero scalar: the inverse of the zero denominator is zero, no error is raised. -/
theorem CalculateLagrangeCoeff_zero_denominator (i : Int) (set : List Int) (j : Int)
    (hj : j ∈ set) (hne : j ≠ i) (hden : denominator i j = zero) :
    CalculateLagrangeCoeff i set = zero := by
  apply toZ_injective
  rw [toZ_CalculateLagrangeCoeff, toZ_zero]
  apply List.prod_eq_zero
  rw [List.mem_map]
  refine ⟨j, List.mem_filter.2 ⟨hj, by simpa using hne⟩, ?_⟩
  have h0 : toZ (embed i) - toZ (embed j) = 0 := by
    rw [← toZ_denominator, hden, toZ_zero]
  rw [h0, inv_zero, mul_zero]

/-- Instance of the amended claim C5 at `i = 5` and `set = [2, 2^32 + 5, 3]`. -/
theorem CalculateLagrangeCoeff_zero_denominator_witness :
    (4294967301 : Int) ∈ ([2, 4294967301, 3] : List Int) ∧ (4294967301 : Int) ≠ 5 ∧
    denominator 5 4294967301 = zero ∧
    CalculateLagrangeCoeff 5 [2, 4294967301, 3] = zero :=
  ⟨by decide, by decide, by decide!,
    CalculateLagrangeCoeff_zero_denominator 5 [2, 4294967301, 3] 4294967301
      (by decide) (by decide) (by decide!)⟩

/-! ## Secret reconstruction -/

open Polynomial in
/-- Lagrange interpolation at zero in a field: a polynomial with `n` coefficients `c` is
recovered at `0` from its values at `n` or more distinct nodes. -/
theorem lagrange_at_zero {F : Type} [Field F] (s : Finset ℤ) (v : ℤ → F)
    (hvs : Set.InjOn v s) (c : ℕ → F) (n : ℕ) (hn : n ≤ s.card) :
    ∑ i in s, (∏ j in s.erase i, (- v j * (v i - v j)⁻¹))
        * (∑ k in Finset.range n, c k * v i ^ k)
      = ∑ k in Finset.range n, c k * 0 ^ k := by
  obtain ⟨f, hf⟩ : ∃ f : F[X], f = ∑ k in Finset.range n, C (c k) * X ^ k := ⟨_, rfl⟩
  have heval : ∀ x, f.eval x = ∑ k in Finset.range n, c k * x ^ k := by
    intro x
    simp [hf, eval_finset_sum]
  have hdeg : f.degree < (s.card : WithBot ℕ) := by
    refine lt_of_lt_of_le ?_ (Nat.cast_le.2 hn)
    rw [hf]
    refine lt_of_le_of_lt (degree_sum_le _ _) ?_
    refine (Finset.sup_lt_iff (WithBot.bot_lt_coe n)).2 ?_
    intro k hk
    refine lt_of_le_of_lt (degree_C_mul_X_pow_le k (c k)) ?_
    exact Nat.cast_lt.2 (Finset.mem_range.1 hk)
  have hint : f = Lagrange.interpolate s v (fun i => f.eval (v i)) :=
    Lagrange.eq_interpolate hvs hdeg
  have h0 := congrArg (eval 0) hint
  rw [Lagrange.interpolate_apply, eval_finset_sum, heval] at h0
  rw [h0]
  refine Finset.sum_congr rfl (fun i _ => ?_)
  rw [eval_mul, eval_C, heval, Lagrange.basis, eval_prod, mul_comm]
  congr 1
  refine Finset.prod_congr rfl (fun j _ => ?_)
  rw [Lagrange.basisDivisor, eval_mul, eval_C, eval_sub, eval_X, eval_C]
  ring

/-- Distinct indices in `[0, 2^32 - 1]` stay distinct in `ZMod N`. -/
theorem intCast_injOn_range (a b : Int) (ha : 0 ≤ a ∧ a ≤ 4294967295)
    (hb : 0 ≤ b ∧ b ≤ 4294967295) (h : ((a : ℤ) : ZMod N) = ((b : ℤ) : ZMod N)) : a = b := by
  rw [ZMod.intCast_eq_intCast_iff_dvd_sub] at h
  obtain ⟨k, hk⟩ := h
  simp only [N, Nat.cast_ofNat] at hk
  omega

/-- Every evaluation of a non-empty polynomial at an embedded index returns a share, whose
field value is the value of the polynomial at that index. -/
theorem exists_share (polynomial : List ModNScalar) (hp : polynomial ≠ []) :
    ∃ share : Int → ModNScalar, ∀ i : Int,
      EvaluatePolynomial polynomial (embed i) = .ok (share i) ∧
      toZ (share i) = ∑ k in Finset.range polynomial.length,
        toZ (polynomial.getD k zero) * toZ (embed i) ^ k := by
  have h := fun i : Int => EvaluatePolynomial_toZ polynomial (embed i) hp
  exact ⟨fun i => (h i).choose, fun i => (h i).choose_spec⟩

/-- Claim C1 (secret reconstruction). For every polynomial with `t ≥ 1` coefficients over `Z_N`
and every list `set` of at least `t` pairwise distinct participant indices, each in
`[1, 2^32 - 1]`, every evaluation `EvaluatePolynomial polynomial i` for `i` in `set` returns a
share, and the sum over `i` in `set` of `CalculateLagrangeCoeff i set` times that share is the
secret `polynomial[0]` modulo `N`. -/
theorem secret_reconstruction (polynomial : List ModNScalar) (set : List Int)
    (hp : polynomial ≠ []) (hlen : polynomial.length ≤ set.length) (hnd : set.Nodup)
    (hrange : ∀ i ∈ set, 1 ≤ i ∧ i ≤ 4294967295) :
    ∃ share : Int → ModNScalar,
      (∀ i ∈ set, EvaluatePolynomial polynomial (embed i) = .ok (share i)) ∧
      (set.map (fun i => (CalculateLagrangeCoeff i set).val * (share i).val)).sum % N
        = (polynomial.head hp).val := by
  obtain ⟨share, hshare⟩ := exists_share polynomial hp
  refine ⟨share, fun i _ => (hshare i).1, ?_⟩
  have hvs : Set.InjOn (fun i : ℤ => ((i : ℤ) : ZMod N)) (set.toFinset : Finset ℤ) := by
    intro a ha b hb hab
    have ha' := hrange a (List.mem_toFinset.1 ha)
    have hb' := hrange b (List.mem_toFinset.1 hb)
    exact intCast_injOn_range a b ⟨by omega, ha'.2⟩ ⟨by omega, hb'.2⟩ hab
  have hcard : polynomial.length ≤ set.toFinset.card := by
    rw [List.toFinset_card_of_nodup hnd]
    exact hlen
  have key := lagrange_at_zero set.toFinset (fun i : ℤ => ((i : ℤ) : ZMod N)) hvs
    (fun k => toZ (polynomial.getD k zero)) polynomial.length hcard
  have hsecret : ∑ k in Finset.range polynomial.length,
      toZ (polynomial.getD k zero) * (0 : ZMod N) ^ k = toZ (polynomial.head hp) := by
    rw [Finset.sum_eq_single 0]
    · cases polynomial with
      | nil => exact absurd rfl hp
      | cons a l => simp
    · intro k _ hk
      rw [zero_pow hk, mul_zero]
    · intro h0
      exact absurd (Finset.mem_range.2 (List.length_pos.2 hp)) h0
  rw [hsecret] at key
  beta_reduce at key
  symm
  apply val_eq_of_toZ
  rw [← key, ← List.sum_toFinset _ hnd, Nat.cast_sum]
  refine Finset.sum_congr rfl (fun i hi => ?_)
  have hi' := hrange i (List.mem_toFinset.1 hi)
  have hfilter : (set.filter (fun j => decide (j ≠ i))).toFinset = set.toFinset.erase i := by
    ext j
    simp [and_comm]
  have hcoeff : toZ (CalculateLagrangeCoeff i set)
      = ∏ j in set.toFinset.erase i, (- ((j : ℤ) : ZMod N)
          * (((i : ℤ) : ZMod N) - ((j : ℤ) : ZMod N))⁻¹) := by
    rw [toZ_CalculateLagrangeCoeff, ← List.prod_toFinset _ (hnd.filter _), hfilter]
    refine Finset.prod_congr rfl (fun j hj => ?_)
    have hj' := hrange j (List.mem_toFinset.1 (Finset.mem_of_mem_erase hj))
    rw [toZ_embed_of_range j (by omega) hj'.2, toZ_embed_of_range i (by omega) hi'.2]
  symm
  rw [Nat.cast_mul]
  change toZ (CalculateLagrangeCoeff i set) * toZ (share i) = _
  rw [hcoeff, (hshare i).2, toZ_embed_of_range i (by omega) hi'.2]

/-- Instance of claim C1 for the polynomial `7 + 3 x` (threshold `t = 2`) and the participants
`1` and `2`: the shares are `10` and `13`, the coefficients are `2` and `-1`, and
`2 * 10 - 13 = 7`. -/
theorem secret_reconstruction_witness :
    ([SetInt 7, SetInt 3] ≠ [] ∧ [SetInt 7, SetInt 3].length ≤ ([1, 2] : List Int).length ∧
      ([1, 2] : List Int).Nodup ∧ ∀ i ∈ ([1, 2] : List Int), 1 ≤ i ∧ i ≤ 4294967295) ∧
    (EvaluatePolynomial [SetInt 7, SetInt 3] (embed 1) = .ok (SetInt 10) ∧
      EvaluatePolynomial [SetInt 7, SetInt 3] (embed 2) = .ok (SetInt 13) ∧
      ((CalculateLagrangeCoeff 1 [1, 2]).val * 10 + (CalculateLagrangeCoeff 2 [1, 2]).val * 13) % N
        = 7) ∧
    ∃ share : Int → ModNScalar,
      (∀ i ∈ ([1, 2] : List Int),
        EvaluatePolynomial [SetInt 7, SetInt 3] (embed i) = .ok (share i)) ∧
      (([1, 2] : List Int).map
          (fun i => (CalculateLagrangeCoeff i [1, 2]).val * (share i).val)).sum % N
        = ([SetInt 7, SetInt 3].head (by decide)).val :=
  ⟨⟨by decide, by decide, by decide, by decide⟩, ⟨by decide!, by decide!, by decide!⟩,
    secret_reconstruction [SetInt 7, SetInt 3] [1, 2] (by decide) (by decide) (by decide)
      (by decide)⟩

/-! ## `GeneratePolynomial` -/

/-- The bytes produced by `big.Int.Bytes` read back, big-endian, as the integer. -/
theorem beNat_bytesAux (fuel : Nat) : ∀ (n : Nat) (acc : List Nat), n ≤ fuel →
    (bytesAux fuel n acc).foldl (fun a b => a * 256 + b % 256) 0
      = acc.foldl (fun a b => a * 256 + b % 256) n := by
  induction fuel with
  | zero =>
    intro n acc h
    have : n = 0 := by omega
    subst this
    rfl
  | succ f ih =>
    intro n acc h
    unfold bytesAux
    by_cases h0 : n = 0
    · subst h0
      rw [if_pos rfl]
    · rw [if_neg h0, ih _ _ (by omega), List.foldl_cons]
      congr 1
      omega

/-- An integer below `256 ^ k` has at most `k` bytes. -/
theorem length_bytesAux (fuel : Nat) : ∀ (n k : Nat) (acc : List Nat), n ≤ fuel → n < 256 ^ k →
    (bytesAux fuel n acc).length ≤ acc.length + k := by
  induction fuel with
  | zero =>
    intro n k acc _ _
    simp [bytesAux]
  | succ f ih =>
    intro n k acc h hk
    unfold bytesAux
    by_cases h0 : n = 0
    · rw [if_pos h0]
      omega
    · rw [if_neg h0]
      cases k with
      | zero => simp at hk; exact absurd hk h0
      | succ k =>
        have hdiv : n / 256 < 256 ^ k := by
          rw [Nat.div_lt_iff_lt_mul (by norm_num)]
          rw [pow_succ] at hk
          exact hk
        have := ih (n / 256) k (n % 256 :: acc) (by omega) hdiv
        rw [List.length_cons] at this
        omega

/-- A drawn integer below `N` survives `Bytes` followed by `SetByteSlice` unchanged: nothing
is truncated (at most 32 bytes) and nothing is reduced. -/
theorem SetByteSlice_bigIntBytes (r : Nat) (h : r < N) :
    (SetByteSlice (bigIntBytes r)).val = r := by
  have hlen : (bigIntBytes r).length ≤ 32 := by
    have := length_bytesAux r r 32 [] le_rfl (lt_trans h (by decide))
    simpa [bigIntBytes] using this
  rw [SetByteSlice, List.take_of_length_le hlen, beNat, bigIntBytes,
    beNat_bytesAux r r [] le_rfl]
  exact Nat.mod_eq_of_lt h

theorem wrapInt64_succ (i : Nat) (h : i + 1 < 9223372036854775808) :
    wrapInt64 ((i : Int) + 1) = ((i + 1 : Nat) : Int) := by
  unfold wrapInt64
  omega

theorem setIndex_natCast {α : Type} (xs : List α) (i : Nat) (v : α) (h : i < xs.length) :
    setIndex xs (i : Int) v = .ok (xs.set i v) := by
  unfold setIndex
  rw [if_pos ⟨by omega, by simpa using h⟩]
  simp

/-- The loop of `GeneratePolynomial` when none of the remaining draws fails: it makes one draw
per iteration, stores the scalar made from draw `k` at index `k` and keeps the entries below
the starting index. -/
theorem genLoop_ok (rand : Nat → Option Nat) :
    ∀ (remaining i : Nat) (st : GenState) (polynomial : List (Option ModNScalar)),
      st.draws = i → i + remaining ≤ polynomial.length → i + remaining < 9223372036854775808 →
      (∀ k, i ≤ k → k < i + remaining → rand k ≠ none) →
      ∃ out, genLoop rand remaining (i : Int) st polynomial
          = (⟨i + remaining, st.tFailed⟩, .ok out) ∧
        out.length = polynomial.length ∧
        (∀ k, i ≤ k → k < i + remaining →
          out[k]? = some ((rand k).map (fun r => SetByteSlice (bigIntBytes r)))) ∧
        (∀ k, k < i → out[k]? = polynomial[k]?) := by
  intro remaining
  induction remaining with
  | zero =>
    intro i st polynomial hd _ _ _
    refine ⟨polynomial, ?_, rfl, ?_, fun _ _ => rfl⟩
    · cases st
      simp only at hd
      subst hd
      rfl
    · intro k h1 h2
      omega
  | succ n ih =>
    intro i st polynomial hd hlen hbound hrand
    subst hd
    obtain ⟨r, hr⟩ := Option.ne_none_iff_exists'.1 (hrand st.draws le_rfl (by omega))
    obtain ⟨out, hout, hl, hnew, hold⟩ := ih (st.draws + 1) ⟨st.draws + 1, st.tFailed⟩
      (polynomial.set st.draws (some (SetByteSlice (bigIntBytes r)))) rfl
      (by rw [List.length_set]; omega) (by omega) (fun k h1 h2 => hrand k (by omega) (by omega))
    refine ⟨out, ?_, ?_, ?_, ?_⟩
    · rw [genLoop, hr]
      simp only
      rw [setIndex_natCast _ _ _ (by omega)]
      simp only
      rw [wrapInt64_succ st.draws (by omega), hout, Nat.add_assoc, Nat.add_comm 1 n]
    · rw [hl, List.length_set]
    · intro k h1 h2
      by_cases hk : k = st.draws
      · rw [hk, hold st.draws (by omega), List.getElem?_set_self (by omega), hr]
        rfl
      · exact hnew k (by omega) (by omega)
    · intro k hk
      rw [hold k (by omega), List.getElem?_set_ne (by omega)]

/-- The loop of `GeneratePolynomial` when one of the remaining draws fails: the assertion marks
the test handle as failed and the call panics on the nil `*big.Int`. -/
theorem genLoop_error (rand : Nat → Option Nat) :
    ∀ (remaining i : Nat) (st : GenState) (polynomial : List (Option ModNScalar)),
      st.draws = i → i + remaining ≤ polynomial.length → i + remaining < 9223372036854775808 →
      (∃ k, i ≤ k ∧ k < i + remaining ∧ rand k = none) →
      ∃ st', genLoop rand remaining (i : Int) st polynomial = (st', .error .nilDereference) ∧
        st'.tFailed = true := by
  intro remaining
  induction remaining with
  | zero =>
    intro i st polynomial _ _ _ hex
    obtain ⟨k, h1, h2, _⟩ := hex
    omega
  | succ n ih =>
    intro i st polynomial hd hlen hbound hex
    subst hd
    cases hr : rand st.draws with
    | none =>
      refine ⟨⟨st.draws + 1, true⟩, ?_, rfl⟩
      rw [genLoop, hr]
    | some r =>
      obtain ⟨k, h1, h2, hk⟩ := hex
      have hne : k ≠ st.draws := by
        intro h
        rw [h, hr] at hk
        exact absurd hk (by simp)
      obtain ⟨st', hst', hfailed⟩ := ih (st.draws + 1) ⟨st.draws + 1, st.tFailed⟩
        (polynomial.set st.draws (some (SetByteSlice (bigIntBytes r)))) rfl
        (by rw [List.length_set]; omega) (by omega) ⟨k, by omega, by omega, hk⟩
      refine ⟨st', ?_, hfailed⟩
      rw [genLoop, hr]
      simp only
      rw [setIndex_natCast _ _ _ (by omega)]
      simp only
      rw [wrapInt64_succ st.draws (by omega), hst']

/-- For a degree whose length `degree+1` is within the allocation limit,
`GeneratePolynomial` allocates `degree+1` nil entries and runs the loop `degree+1` times from
index `0`. -/
theorem GeneratePolynomial_eq_genLoop (maxLen : Nat) (rand : Nat → Option Nat) (degree : Int)
    (h0 : 0 ≤ degree) (h1 : degree + 1 ≤ maxLen) (hmax : maxLen < 9223372036854775808) :
    GeneratePolynomial maxLen rand degree
      = genLoop rand (degree + 1).toNat ((0 : Nat) : Int) ⟨0, false⟩
          (List.replicate (degree + 1).toNat none) := by
  have hw : wrapInt64 (degree + 1) = degree + 1 := by
    unfold wrapInt64
    omega
  rw [GeneratePolynomial, hw, make, if_neg (by omega)]
  rfl

/-- Claim C7, counterexample. With the allocation limit of linux/amd64 (`2^45` pointers) the
non-negative degree `2^45` asks `make` for `2^45 + 1` entries, `make` panics, and no polynomial
is returned, although the random source never fails; at the degree `2^63 - 1` the `int64` sum
`degree+1` wraps to `-2^63`, with the same panic. -/
theorem GeneratePolynomial_length_counterexample :
    (0 : Int) ≤ 35184372088832 ∧
    GeneratePolynomial 35184372088832 (fun _ => some 0) 35184372088832
      = (⟨0, false⟩, .error .makesliceLenOutOfRange) ∧
    GeneratePolynomial 35184372088832 (fun _ => some 0) 9223372036854775807
      = (⟨0, false⟩, .error .makesliceLenOutOfRange) := by
  refine ⟨by decide, by decide!, by decide!⟩

/-- Claim C7, amended. For every degree `d ≥ 0` whose length `d + 1` is within the allocation
limit `maxLen` of `make` (a slice length, hence below `2^63`) and every random source that
never fails, `GeneratePolynomial d` returns a polynomial with exactly `d + 1` coefficients,
none of them nil. -/
theorem GeneratePolynomial_length (maxLen : Nat) (rand : Nat → Option Nat) (degree : Int)
    (h0 : 0 ≤ degree) (h1 : degree + 1 ≤ maxLen) (hmax : maxLen < 9223372036854775808)
    (hrand : ∀ k, rand k ≠ none) :
    ∃ st out, GeneratePolynomial maxLen rand degree = (st, .ok out) ∧
      (out.length : Int) = degree + 1 ∧ ∀ c ∈ out, c ≠ none := by
  obtain ⟨out, hout, hl, hnew, _⟩ := genLoop_ok rand (degree + 1).toNat 0 ⟨0, false⟩
    (List.replicate (degree + 1).toNat none) rfl (by simp) (by omega) (fun k _ _ => hrand k)
  refine ⟨⟨0 + (degree + 1).toNat, false⟩, out, ?_, ?_, ?_⟩
  · rw [GeneratePolynomial_eq_genLoop maxLen rand degree h0 h1 hmax]
    exact hout
  · rw [hl, List.length_replicate]
    omega
  · intro c hc
    obtain ⟨k, hk, hkc⟩ := List.mem_iff_getElem.1 hc
    have hk' : k < 0 + (degree + 1).toNat := by
      rw [hl, List.length_replicate] at hk
      omega
    have hget := hnew k (Nat.zero_le k) hk'
    rw [List.getElem?_eq_getElem hk, hkc] at hget
    obtain ⟨r, hr⟩ := Option.ne_none_iff_exists'.1 (hrand k)
    rw [hr] at hget
    rw [Option.some.inj hget]
    simp

/-- Instance of the amended claim C7 at degree `2`, with the allocation limit `2^45`. -/
theorem GeneratePolynomial_length_witness :
    ((0 : Int) ≤ 2 ∧ (2 : Int) + 1 ≤ ((35184372088832 : Nat) : Int) ∧
      35184372088832 < 9223372036854775808 ∧
      ∀ k, (fun k : Nat => some (k + 5)) k ≠ none) ∧
    ∃ st out, GeneratePolynomial 35184372088832 (fun k => some (k + 5)) 2 = (st, .ok out) ∧
      (out.length : Int) = 2 + 1 ∧ ∀ c ∈ out, c ≠ none :=
  ⟨⟨by decide, by decide, by decide, fun k => by simp⟩,
    GeneratePolynomial_length 35184372088832 (fun k => some (k + 5)) 2 (by decide) (by decide)
      (by decide) (fun k => by simp)⟩

/-- Claim C8, counterexample. With the allocation limit of linux/amd64 (`2^45` pointers) and a
source whose draws are all `7`, `GeneratePolynomial (2^62)` makes no draw at all, not
`2^62 + 1`: `make` panics before the loop, and there are no coefficients. -/
theorem GeneratePolynomial_draws_counterexample :
    (∀ k : Nat, (fun _ : Nat => some 7) k = some 7 ∧ 7 < N) ∧
    (GeneratePolynomial 35184372088832 (fun _ => some 7) 4611686018427387904).1.draws = 0 ∧
    (GeneratePolynomial 35184372088832 (fun _ => some 7) 4611686018427387904).2
      = .error .makesliceLenOutOfRange := by
  refine ⟨fun _ => ⟨rfl, by decide⟩, by decide!, by decide!⟩

/-- Claim C8, amended. Let the random source deliver the draws `r 0, r 1, ...`, each below
`N`, and let the degree `d ≥ 0` be such that `d + 1` is within the allocation limit `maxLen` of
`make` (a slice length, hence below `2^63`). Then `GeneratePolynomial d` makes exactly `d + 1`
draws, and its `k`-th coefficient is the scalar whose value is exactly `r k` (unchanged by the
byte conversion, zero included), hence a value in `[0, N)`, one draw per coefficient. -/
theorem GeneratePolynomial_draws (maxLen : Nat) (rand : Nat → Option Nat) (r : Nat → Nat)
    (degree : Int) (h0 : 0 ≤ degree) (h1 : degree + 1 ≤ maxLen)
    (hmax : maxLen < 9223372036854775808)
    (hr : ∀ k : Nat, (k : Int) ≤ degree → rand k = some (r k) ∧ r k < N) :
    ∃ out, GeneratePolynomial maxLen rand degree = (⟨(degree + 1).toNat, false⟩, .ok out) ∧
      out.length = (degree + 1).toNat ∧
      ∀ k : Nat, (k : Int) ≤ degree →
        ∃ c : ModNScalar, out[k]? = some (some c) ∧ c.val = r k ∧ c.val < N := by
  obtain ⟨out, hout, hl, hnew, _⟩ := genLoop_ok rand (degree + 1).toNat 0 ⟨0, false⟩
    (List.replicate (degree + 1).toNat none) rfl (by simp) (by omega)
    (fun k _ hk => by rw [(hr k (by omega)).1]; simp)
  refine ⟨out, ?_, ?_, ?_⟩
  · rw [GeneratePolynomial_eq_genLoop maxLen rand degree h0 h1 hmax, hout, Nat.zero_add]
  · rw [hl, List.length_replicate]
  · intro k hk
    obtain ⟨hrk, hlt⟩ := hr k hk
    refine ⟨SetByteSlice (bigIntBytes (r k)), ?_, SetByteSlice_bigIntBytes (r k) hlt, ?_⟩
    · rw [hnew k (Nat.zero_le k) (by omega), hrk]
      rfl
    · exact (SetByteSlice (bigIntBytes (r k))).reduced

/-- Instance of the amended claim C8 at degree `2` with the draws `0, 1, 2` and the allocation
limit `2^45`. -/
theorem GeneratePolynomial_draws_witness :
    ((0 : Int) ≤ 2 ∧ (2 : Int) + 1 ≤ ((35184372088832 : Nat) : Int) ∧
      35184372088832 < 9223372036854775808) ∧
    GeneratePolynomial 35184372088832 (fun k => some k) 2
      = (⟨3, false⟩, .ok [some (SetInt 0), some (SetInt 1), some (SetInt 2)]) ∧
    ∃ out, GeneratePolynomial 35184372088832 (fun k => some k) 2
        = (⟨((2 : Int) + 1).toNat, false⟩, .ok out) ∧
      out.length = ((2 : Int) + 1).toNat ∧
      ∀ k : Nat, (k : Int) ≤ 2 →
        ∃ c : ModNScalar, out[k]? = some (some c) ∧ c.val = (fun k : Nat => k) k ∧ c.val < N :=
  ⟨⟨by decide, by decide, by decide⟩, by decide!,
    GeneratePolynomial_draws 35184372088832 (fun k => some k) (fun k => k) 2 (by decide)
      (by decide) (by decide) (fun k hk => ⟨rfl, by show k < N; unfold N; omega⟩)⟩

/-- Claim C9, counterexample. At degree `2` with a source whose second draw fails, what the
caller of `GeneratePolynomial` receives is the run-time panic of the call `Bytes` on the nil
`*big.Int`, after two draws; the error of the random source has only been handed to
`assert.Nil`, which marks the test handle `s.T` as failed. -/
theorem GeneratePolynomial_error_counterexample :
    (fun k : Nat => if k = 1 then none else some 7) 1 = (none : Option Nat) ∧
    GeneratePolynomial 35184372088832 (fun k => if k = 1 then none else some 7) 2
      = (⟨2, true⟩, .error .nilDereference) := by
  refine ⟨by decide, by decide!⟩

/-- Claim C9, amended. If one of the `d + 1` draws of `GeneratePolynomial d` ends in an error
(with `d ≥ 0` and `d + 1` within the allocation limit `maxLen` of `make`), the error is not
returned to the caller but recorded by `assert.Nil` on the test handle `s.T`, and the call
returns no polynomial, so none built from a substituted or default value. -/
theorem GeneratePolynomial_error (maxLen : Nat) (rand : Nat → Option Nat) (degree : Int)
    (h0 : 0 ≤ degree) (h1 : degree + 1 ≤ maxLen) (hmax : maxLen < 9223372036854775808)
    (k : Nat) (hk : (k : Int) ≤ degree) (herr : rand k = none) :
    ∃ st e, GeneratePolynomial maxLen rand degree = (st, .error e) ∧ st.tFailed = true := by
  obtain ⟨st, hst, hfailed⟩ := genLoop_error rand (degree + 1).toNat 0 ⟨0, false⟩
    (List.replicate (degree + 1).toNat none) rfl (by simp) (by omega)
    ⟨k, Nat.zero_le k, by omega, herr⟩
  exact ⟨st, .nilDereference,
    by rw [GeneratePolynomial_eq_genLoop maxLen rand degree h0 h1 hmax]; exact hst, hfailed⟩

/-- Instance of the amended claim C9 at degree `3` with a source whose third draw fails and
the allocation limit `2^45`. -/
theorem GeneratePolynomial_error_witness :
    ((0 : Int) ≤ 3 ∧ (3 : Int) + 1 ≤ ((35184372088832 : Nat) : Int) ∧
      35184372088832 < 9223372036854775808 ∧ ((2 : Nat) : Int) ≤ 3 ∧
      (fun k : Nat => if k = 2 then none else some 7) 2 = none) ∧
    ∃ st e, GeneratePolynomial 35184372088832 (fun k => if k = 2 then none else some 7) 3
      = (st, .error e) ∧ st.tFailed = true :=
  ⟨⟨by decide, by decide, by decide, by decide, by decide⟩,
    GeneratePolynomial_error 35184372088832 (fun k => if k = 2 then none else some 7) 3
      (by decide) (by decide) (by decide) 2 (by decide) (by decide)⟩

/-! ## `Int64ToBytes` and `BytesToInt64` -/

/-- Reading back the eight bytes written by `PutUint64` gives the 64-bit value. -/
theorem Uint64_PutUint64 (u : Nat) (h : u < 18446744073709551616) :
    Uint64 (PutUint64 u) = .ok u := by
  unfold Uint64 PutUint64
  simp only [Nat.mod_mod]
  congr 1
  omega

theorem uint64_lt (v : Int) : uint64 v < 18446744073709551616 := by
  unfold uint64
  omega

theorem int64_uint64 (v : Int) (hlo : -9223372036854775808 ≤ v)
    (hhi : v ≤ 9223372036854775807) : int64 (uint64 v) = v := by
  unfold int64 uint64
  split_ifs <;> omega

/-- Claim C10 (byte round-trip). For every `int64` value `v`, that is every integer with
`-2^63 ≤ v ≤ 2^63 - 1` (zero, the negative values, the minimum and the maximum included),
`BytesToInt64 (Int64ToBytes v)` returns `v`. -/
theorem BytesToInt64_Int64ToBytes (v : Int) (hlo : -9223372036854775808 ≤ v)
    (hhi : v ≤ 9223372036854775807) : BytesToInt64 (Int64ToBytes v) = .ok v := by
  unfold BytesToInt64 Int64ToBytes
  rw [Uint64_PutUint64 _ (uint64_lt v)]
  simp only
  rw [int64_uint64 v hlo hhi]

/-- Instance of claim C10 at the minimum `int64`, whose bytes are `80 00 00 00 00 00 00 00`. -/
theorem BytesToInt64_Int64ToBytes_witness :
    ((-9223372036854775808 : Int) ≤ -9223372036854775808 ∧
      (-9223372036854775808 : Int) ≤ 9223372036854775807) ∧
    Int64ToBytes (-9223372036854775808) = [128, 0, 0, 0, 0, 0, 0, 0] ∧
    BytesToInt64 (Int64ToBytes (-9223372036854775808)) = .ok (-9223372036854775808) :=
  ⟨⟨by decide, by decide⟩, by decide,
    BytesToInt64_Int64ToBytes (-9223372036854775808) (by decide) (by decide)⟩

/-- Claim C11 (encoding shape). For every `int64` `n` (indeed for every integer),
`Int64ToBytes n` has exactly 8 entries, each a byte, byte `k` is the base-256 digit of weight
`256 ^ (7 - k)` of `n mod 2^64`, and read most significant byte first the bytes give
`n mod 2^64`, the two's-complement bit pattern of `n` as an unsigned 64-bit integer. -/
theorem Int64ToBytes_shape (n : Int) :
    (Int64ToBytes n).length = 8 ∧
    (∀ b ∈ Int64ToBytes n, b < 256) ∧
    (∀ k, k < 8 → (Int64ToBytes n)[k]?
      = some ((n % 18446744073709551616).toNat / 256 ^ (7 - k) % 256)) ∧
    (((Int64ToBytes n).foldl (fun acc b => acc * 256 + b) 0 : Nat) : Int)
      = n % 18446744073709551616 := by
  refine ⟨rfl, ?_, ?_, ?_⟩
  · intro b hb
    simp only [Int64ToBytes, PutUint64, List.mem_cons, List.mem_singleton, List.not_mem_nil,
      or_false] at hb
    rcases hb with h | h | h | h | h | h | h | h <;> omega
  · intro k hk
    have hcases : k = 0 ∨ k = 1 ∨ k = 2 ∨ k = 3 ∨ k = 4 ∨ k = 5 ∨ k = 6 ∨ k = 7 := by omega
    rcases hcases with h | h | h | h | h | h | h | h <;> subst h <;>
      simp [Int64ToBytes, PutUint64, uint64]
  · simp only [Int64ToBytes, PutUint64, uint64, List.foldl_cons, List.foldl_nil]
    omega

/-! ## Further properties of `EvaluatePolynomial` -/

/-- Claim C12 (degree-0 polynomial). For every scalar `a_0` and every scalar `x`,
`EvaluatePolynomial [a_0] x` returns `a_0`. -/
theorem EvaluatePolynomial_degree_zero (a_0 x : ModNScalar) :
    EvaluatePolynomial [a_0] x = .ok a_0 := by
  have htop : index [a_0] ((([a_0] : List ModNScalar).length : Int) - 1) = .ok a_0 := rfl
  rw [EvaluatePolynomial, htop]
  rfl

/-- The calls of the loop started at index `k - 1`: a multiplication and the addition of
coefficient `j`, for `j = k - 1` down to `0`. -/
theorem evalLoopTraced_spec (polynomial : List ModNScalar) (x : ModNScalar) :
    ∀ (k : Nat) (r : ModNScalar) (log : List Op), k ≤ polynomial.length →
      ∃ r', evalLoop polynomial x k r = .ok r' ∧
        evalLoopTraced polynomial x k r log
          = .ok (r', log ++ (List.range k).reverse.flatMap (fun j => [Op.mul, Op.add j])) := by
  intro k
  induction k with
  | zero =>
    intro r log _
    exact ⟨r, rfl, by simp [evalLoopTraced]⟩
  | succ k ih =>
    intro r log hk
    obtain ⟨r', hr', hlog⟩ := ih (ModNScalar.Add (ModNScalar.Mul r x) (polynomial.getD k zero))
      (log ++ [Op.mul, Op.add k]) (by omega)
    refine ⟨r', ?_, ?_⟩
    · rw [evalLoop, index_natCast polynomial k zero (by omega)]
      exact hr'
    · rw [evalLoopTraced, index_natCast polynomial k zero (by omega)]
      simp only
      rw [hlog, List.range_succ, List.reverse_append, List.reverse_singleton,
        List.singleton_append, List.flatMap_cons, List.append_assoc]

/-- Numbers of multiplications and additions in the calls of the loop, and the coefficients
added, in order. -/
theorem hornerOps_count (k : Nat) :
    ((List.range k).reverse.flatMap (fun j => [Op.mul, Op.add j])).count Op.mul = k ∧
    ((List.range k).reverse.flatMap (fun j => [Op.mul, Op.add j])).countP Op.isAdd = k := by
  induction k with
  | zero => exact ⟨rfl, rfl⟩
  | succ k ih =>
    rw [List.range_succ, List.reverse_append, List.reverse_singleton, List.singleton_append,
      List.flatMap_cons]
    constructor
    · rw [List.count_append, ih.1]
      simp [List.count_cons]
      omega
    · rw [List.countP_append, ih.2]
      simp [List.countP_cons, Op.isAdd]
      omega

/-- Claim C14 (Horner operation count). For every polynomial with `t + 1 ≥ 1` coefficients,
`EvaluatePolynomial` first sets the accumulator to the highest-degree coefficient `a_t` and
then, for `k = t - 1` down to `0`, multiplies by `x` and adds `a_k`: exactly `t`
multiplications and exactly `t` additions, and the value is that of `EvaluatePolynomial`. -/
theorem EvaluatePolynomial_operation_count (polynomial : List ModNScalar) (x : ModNScalar)
    (h : polynomial ≠ []) :
    ∃ r log, EvaluatePolynomial polynomial x = .ok r ∧
      EvaluatePolynomialTraced polynomial x = .ok (r, log) ∧
      log = Op.set (polynomial.length - 1)
        :: (List.range (polynomial.length - 1)).reverse.flatMap (fun k => [Op.mul, Op.add k]) ∧
      log.count Op.mul = polynomial.length - 1 ∧
      log.countP Op.isAdd = polynomial.length - 1 := by
  have hlen : 0 < polynomial.length := List.length_pos.2 h
  have hidx : ((polynomial.length : Int) - 1) = ((polynomial.length - 1 : Nat) : Int) := by
    omega
  obtain ⟨r, hr, hlog⟩ := evalLoopTraced_spec polynomial x (polynomial.length - 1)
    (ModNScalar.Set (polynomial.getD (polynomial.length - 1) zero))
    [Op.set (polynomial.length - 1)] (by omega)
  refine ⟨r, _, ?_, ?_, rfl, ?_, ?_⟩
  · rw [EvaluatePolynomial, hidx, index_natCast polynomial _ zero (by omega)]
    exact hr
  · rw [EvaluatePolynomialTraced, hidx, index_natCast polynomial _ zero (by omega)]
    exact hlog
  · rw [List.count_cons, (hornerOps_count _).1]
    simp
  · rw [List.countP_cons, (hornerOps_count _).2]
    simp [Op.isAdd]

/-- Instance of claim C14 at the polynomial `3 + 5 x + 2 x^2` and `x = 2`: the calls are
`Set(a_2)`, `Mul`, `Add(a_1)`, `Mul`, `Add(a_0)`. -/
theorem EvaluatePolynomial_operation_count_witness :
    [SetInt 3, SetInt 5, SetInt 2] ≠ [] ∧
    EvaluatePolynomialTraced [SetInt 3, SetInt 5, SetInt 2] (SetInt 2)
      = .ok (SetInt 21, [Op.set 2, Op.mul, Op.add 1, Op.mul, Op.add 0]) ∧
    ∃ r log, EvaluatePolynomial [SetInt 3, SetInt 5, SetInt 2] (SetInt 2) = .ok r ∧
      EvaluatePolynomialTraced [SetInt 3, SetInt 5, SetInt 2] (SetInt 2) = .ok (r, log) ∧
      log = Op.set ([SetInt 3, SetInt 5, SetInt 2].length - 1)
        :: (List.range ([SetInt 3, SetInt 5, SetInt 2].length - 1)).reverse.flatMap
            (fun k => [Op.mul, Op.add k]) ∧
      log.count Op.mul = [SetInt 3, SetInt 5, SetInt 2].length - 1 ∧
      log.countP Op.isAdd = [SetInt 3, SetInt 5, SetInt 2].length - 1 :=
  ⟨by decide, by decide!,
    EvaluatePolynomial_operation_count [SetInt 3, SetInt 5, SetInt 2] (SetInt 2) (by decide)⟩

/-! ## `EvaluatePolynomial` on the heap: frame and determinism -/

theorem heapLoad_of_lt (h : Heap) (p : Nat) (hp : p < h.length) :
    heapLoad h p = .ok (h.getD p zero) := by
  rw [heapLoad, List.get?_eq_get hp, List.getD_eq_getElem h zero hp]
  rfl

theorem getD_set_ne (h : Heap) (s a : Nat) (v : ModNScalar) (hne : a ≠ s) :
    (h.set s v).getD a zero = h.getD a zero := by
  rw [List.getD_eq_getElem?_getD, List.getD_eq_getElem?_getD,
    List.getElem?_set_ne (fun e => hne e.symm)]

theorem getD_set_self (h : Heap) (s : Nat) (v : ModNScalar) (hs : s < h.length) :
    (h.set s v).getD s zero = v := by
  rw [List.getD_eq_getElem?_getD, List.getElem?_set_self hs]
  rfl

/-- The loop on the heap writes only the cell of `result`, and leaves in it the value that
the loop on values computes from the values of the cells. -/
theorem evalLoopHeap_spec (polynomial : List Nat) (x result : Nat)
    (hvalid : ∀ p ∈ polynomial, p < result) (hx : x < result) :
    ∀ (k : Nat) (h : Heap), k ≤ polynomial.length → h.length = result + 1 →
      ∃ h', evalLoopHeap polynomial x result k h = .ok h' ∧
        h'.length = result + 1 ∧
        (∀ a, a < result → h'[a]? = h[a]?) ∧
        evalLoop (polynomial.map (fun p => h.getD p zero)) (h.getD x zero) k
          (h.getD result zero) = .ok (h'.getD result zero) := by
  intro k
  induction k with
  | zero =>
    intro h _ hlen
    exact ⟨h, rfl, hlen, fun _ _ => rfl, rfl⟩
  | succ k ih =>
    intro h hk hlen
    have hc : polynomial.getD k 0 < result :=
      hvalid _ (by rw [List.getD_eq_getElem polynomial 0 (by omega)]; exact List.getElem_mem _)
    have hmul : heapMul h result x
        = .ok (h.set result (ModNScalar.Mul (h.getD result zero) (h.getD x zero))) := by
      rw [heapMul, heapLoad_of_lt h result (by omega), heapLoad_of_lt h x (by omega)]
    have hadd : heapAdd (h.set result (ModNScalar.Mul (h.getD result zero) (h.getD x zero)))
        result (polynomial.getD k 0)
        = .ok (h.set result (ModNScalar.Add
            (ModNScalar.Mul (h.getD result zero) (h.getD x zero))
            (h.getD (polynomial.getD k 0) zero))) := by
      rw [heapAdd, heapLoad_of_lt _ result (by rw [List.length_set]; omega),
        heapLoad_of_lt _ (polynomial.getD k 0) (by rw [List.length_set]; omega),
        getD_set_self h result _ (by omega), getD_set_ne h result _ _ (by omega)]
      simp only [List.set_set]
    obtain ⟨h', hrun, hlen', hframe, hvalue⟩ := ih
      (h.set result (ModNScalar.Add (ModNScalar.Mul (h.getD result zero) (h.getD x zero))
        (h.getD (polynomial.getD k 0) zero))) (by omega) (by rw [List.length_set]; exact hlen)
    refine ⟨h', ?_, hlen', ?_, ?_⟩
    · rw [evalLoopHeap, hmul]
      simp only
      rw [index_natCast polynomial k 0 (by omega)]
      simp only
      rw [hadd]
      exact hrun
    · intro a ha
      rw [hframe a ha, List.getElem?_set_ne (by omega)]
    · rw [getD_set_ne h result x _ (by omega), getD_set_self h result _ (by omega)] at hvalue
      have hmap : polynomial.map (fun p => (h.set result (ModNScalar.Add
            (ModNScalar.Mul (h.getD result zero) (h.getD x zero))
            (h.getD (polynomial.getD k 0) zero))).getD p zero)
          = polynomial.map (fun p => h.getD p zero) := by
        apply List.map_congr_left
        intro p hp
        exact getD_set_ne h result p _ (by have := hvalid p hp; omega)
      rw [hmap] at hvalue
      rw [evalLoop, index_natCast _ k zero (by rw [List.length_map]; omega)]
      simp only
      have hget : (polynomial.map (fun p => h.getD p zero)).getD k zero
          = h.getD (polynomial.getD k 0) zero := by
        rw [List.getD_eq_getElem _ zero (by rw [List.length_map]; omega), List.getElem_map,
          List.getD_eq_getElem polynomial 0 (by omega)]
      rw [hget]
      exact hvalue

/-- A call of `EvaluatePolynomial` on valid pointers allocates one cell, writes only that
cell, returns a pointer to it, and leaves in it the value computed from the values of the
cells that the arguments point to. -/
theorem EvaluatePolynomialHeap_spec (h : Heap) (polynomial : List Nat) (x : Nat)
    (hp : polynomial ≠ []) (hvalid : ∀ p ∈ polynomial, p < h.length) (hx : x < h.length) :
    ∃ h', EvaluatePolynomialHeap h polynomial x = .ok (h', h.length) ∧
      h'.length = h.length + 1 ∧
      (∀ a, a < h.length → h'[a]? = h[a]?) ∧
      EvaluatePolynomial (polynomial.map (fun p => h.getD p zero)) (h.getD x zero)
        = .ok (h'.getD h.length zero) := by
  have hlen : 0 < polynomial.length := List.length_pos.2 hp
  have hidx : ((polynomial.length : Int) - 1) = ((polynomial.length - 1 : Nat) : Int) := by
    omega
  have htop : polynomial.getD (polynomial.length - 1) 0 < h.length :=
    hvalid _ (by rw [List.getD_eq_getElem polynomial 0 (by omega)]; exact List.getElem_mem _)
  have hold : ∀ a, a < h.length → (h ++ [zero]).getD a zero = h.getD a zero := by
    intro a ha
    rw [List.getD_eq_getElem?_getD, List.getD_eq_getElem?_getD, List.getElem?_append_left ha]
  have hset : heapSet (h ++ [zero]) h.length (polynomial.getD (polynomial.length - 1) 0)
      = .ok ((h ++ [zero]).set h.length
          (h.getD (polynomial.getD (polynomial.length - 1) 0) zero)) := by
    rw [heapSet, heapLoad_of_lt _ _ (by
        rw [List.length_append]
        exact Nat.lt_of_lt_of_le htop (Nat.le_add_right _ _)),
      heapLoad_of_lt _ h.length (by rw [List.length_append]; simp), hold _ htop]
    rfl
  obtain ⟨h', hrun, hlen', hframe, hvalue⟩ := evalLoopHeap_spec polynomial x h.length hvalid hx
    (polynomial.length - 1) ((h ++ [zero]).set h.length
      (h.getD (polynomial.getD (polynomial.length - 1) 0) zero)) (by omega)
    (by rw [List.length_set, List.length_append]; rfl)
  refine ⟨h', ?_, hlen', ?_, ?_⟩
  · rw [EvaluatePolynomialHeap, hidx, index_natCast polynomial _ 0 (by omega)]
    simp only [heapNew]
    rw [hset]
    simp only
    rw [hrun]
  · intro a ha
    rw [hframe a ha, List.getElem?_set_ne (by omega), List.getElem?_append_left ha]
  · have hmap : polynomial.map (fun p => ((h ++ [zero]).set h.length
          (h.getD (polynomial.getD (polynomial.length - 1) 0) zero)).getD p zero)
        = polynomial.map (fun p => h.getD p zero) := by
      apply List.map_congr_left
      intro p hp'
      have := hvalid p hp'
      rw [getD_set_ne _ _ _ _ (by omega), hold p this]
    rw [hmap, getD_set_ne _ _ _ _ (by omega), hold x hx,
      getD_set_self _ _ _ (by rw [List.length_append]; simp)] at hvalue
    rw [EvaluatePolynomial, List.length_map, hidx,
      index_natCast _ _ zero (by rw [List.length_map]; omega)]
    simp only
    have hget : (polynomial.map (fun p => h.getD p zero)).getD (polynomial.length - 1) zero
        = h.getD (polynomial.getD (polynomial.length - 1) 0) zero := by
      rw [List.getD_eq_getElem _ zero (by rw [List.length_map]; omega), List.getElem_map,
        List.getD_eq_getElem polynomial 0 (by omega)]
    rw [hget]
    exact hvalue

/-- Claim C15 (evaluation has no side effects). For every non-empty polynomial and every `x`,
given as valid pointers into a heap, `EvaluatePolynomial` returns, and afterwards every cell
that existed before the call, in particular every coefficient and `x`, holds the value it held
before; the returned pointer refers to a cell allocated by the call, different from every
coefficient pointer and from `x`, and that cell holds the value of the evaluation. -/
theorem EvaluatePolynomial_no_side_effects (h : Heap) (polynomial : List Nat) (x : Nat)
    (hp : polynomial ≠ []) (hvalid : ∀ p ∈ polynomial, p < h.length) (hx : x < h.length) :
    ∃ h' result, EvaluatePolynomialHeap h polynomial x = .ok (h', result) ∧
      (∀ a, a < h.length → h'[a]? = h[a]?) ∧
      (∀ p ∈ polynomial, h'.getD p zero = h.getD p zero) ∧
      h'.getD x zero = h.getD x zero ∧
      h.length ≤ result ∧ result < h'.length ∧
      result ∉ polynomial ∧ result ≠ x ∧
      EvaluatePolynomial (polynomial.map (fun p => h.getD p zero)) (h.getD x zero)
        = .ok (h'.getD result zero) := by
  obtain ⟨h', hrun, hlen, hframe, hvalue⟩ := EvaluatePolynomialHeap_spec h polynomial x hp
    hvalid hx
  have hget : ∀ a, a < h.length → h'.getD a zero = h.getD a zero := by
    intro a ha
    rw [List.getD_eq_getElem?_getD, List.getD_eq_getElem?_getD, hframe a ha]
  refine ⟨h', h.length, hrun, hframe, fun p hp' => hget p (hvalid p hp'), hget x hx, le_rfl,
    by omega, ?_, by omega, hvalue⟩
  intro hmem
  exact absurd (hvalid _ hmem) (lt_irrefl _)

/-- Instance of claim C15 on a heap with the cells `3, 5, 2` (the coefficients) and `2` (the
point `x`): the call returns the new cell `4`, which holds `21`, and the old cells are
unchanged. -/
theorem EvaluatePolynomial_no_side_effects_witness :
    ([0, 1, 2] ≠ ([] : List Nat) ∧
      (∀ p ∈ ([0, 1, 2] : List Nat), p < [SetInt 3, SetInt 5, SetInt 2, SetInt 2].length) ∧
      3 < [SetInt 3, SetInt 5, SetInt 2, SetInt 2].length) ∧
    EvaluatePolynomialHeap [SetInt 3, SetInt 5, SetInt 2, SetInt 2] [0, 1, 2] 3
      = .ok ([SetInt 3, SetInt 5, SetInt 2, SetInt 2, SetInt 21], 4) ∧
    ∃ h' result,
      EvaluatePolynomialHeap [SetInt 3, SetInt 5, SetInt 2, SetInt 2] [0, 1, 2] 3
        = .ok (h', result) ∧
      (∀ a, a < [SetInt 3, SetInt 5, SetInt 2, SetInt 2].length →
        h'[a]? = [SetInt 3, SetInt 5, SetInt 2, SetInt 2][a]?) ∧
      (∀ p ∈ ([0, 1, 2] : List Nat),
        h'.getD p zero = [SetInt 3, SetInt 5, SetInt 2, SetInt 2].getD p zero) ∧
      h'.getD 3 zero = [SetInt 3, SetInt 5, SetInt 2, SetInt 2].getD 3 zero ∧
      [SetInt 3, SetInt 5, SetInt 2, SetInt 2].length ≤ result ∧ result < h'.length ∧
      result ∉ ([0, 1, 2] : List Nat) ∧ result ≠ 3 ∧
      EvaluatePolynomial
          (([0, 1, 2] : List Nat).map
            (fun p => [SetInt 3, SetInt 5, SetInt 2, SetInt 2].getD p zero))
          ([SetInt 3, SetInt 5, SetInt 2, SetInt 2].getD 3 zero)
        = .ok (h'.getD result zero) :=
  ⟨⟨by decide, by decide, by decide⟩, by decide!,
    EvaluatePolynomial_no_side_effects [SetInt 3, SetInt 5, SetInt 2, SetInt 2] [0, 1, 2] 3
      (by decide) (by decide) (by decide)⟩

/-- Claim C16 (determinism of evaluation). For every polynomial and scalar, given as valid
pointers into a heap, two evaluations on the same inputs, the second one started in the heap
that the first one left, both return, and the two returned scalars have equal values (the
value that `EvaluatePolynomial` computes from the values of the inputs). -/
theorem EvaluatePolynomial_deterministic (h : Heap) (polynomial : List Nat) (x : Nat)
    (hp : polynomial ≠ []) (hvalid : ∀ p ∈ polynomial, p < h.length) (hx : x < h.length) :
    ∃ h1 r1 h2 r2, EvaluatePolynomialHeap h polynomial x = .ok (h1, r1) ∧
      EvaluatePolynomialHeap h1 polynomial x = .ok (h2, r2) ∧
      h2.getD r2 zero = h2.getD r1 zero ∧
      h2.getD r1 zero = h1.getD r1 zero ∧
      EvaluatePolynomial (polynomial.map (fun p => h.getD p zero)) (h.getD x zero)
        = .ok (h2.getD r2 zero) := by
  obtain ⟨h1, hrun1, hlen1, hframe1, hvalue1⟩ := EvaluatePolynomialHeap_spec h polynomial x hp
    hvalid hx
  have hget1 : ∀ a, a < h.length → h1.getD a zero = h.getD a zero := by
    intro a ha
    rw [List.getD_eq_getElem?_getD, List.getD_eq_getElem?_getD, hframe1 a ha]
  obtain ⟨h2, hrun2, _, hframe2, hvalue2⟩ := EvaluatePolynomialHeap_spec h1 polynomial x hp
    (fun p hp' => by have := hvalid p hp'; omega) (by omega)
  have hmap : polynomial.map (fun p => h1.getD p zero)
      = polynomial.map (fun p => h.getD p zero) := by
    apply List.map_congr_left
    intro p hp'
    exact hget1 p (hvalid p hp')
  rw [hmap, hget1 x hx, hvalue1] at hvalue2
  have hkeep : h2.getD h.length zero = h1.getD h.length zero := by
    rw [List.getD_eq_getElem?_getD, List.getD_eq_getElem?_getD, hframe2 h.length (by omega)]
  have heq : h1.getD h.length zero = h2.getD h1.length zero := Except.ok.inj hvalue2
  refine ⟨h1, h.length, h2, h1.length, hrun1, hrun2, ?_, hkeep, ?_⟩
  · rw [hkeep, heq]
  · rw [hvalue1, heq]

/-- Instance of claim C16 on a heap with the cells `3, 5, 2` (the coefficients) and `2` (the
point `x`): both evaluations return a cell holding `21`. -/
theorem EvaluatePolynomial_deterministic_witness :
    ([0, 1, 2] ≠ ([] : List Nat) ∧
      (∀ p ∈ ([0, 1, 2] : List Nat), p < [SetInt 3, SetInt 5, SetInt 2, SetInt 2].length) ∧
      3 < [SetInt 3, SetInt 5, SetInt 2, SetInt 2].length) ∧
    EvaluatePolynomialHeap [SetInt 3, SetInt 5, SetInt 2, SetInt 2, SetInt 21] [0, 1, 2] 3
      = .ok ([SetInt 3, SetInt 5, SetInt 2, SetInt 2, SetInt 21, SetInt 21], 5) ∧
    ∃ h1 r1 h2 r2,
      EvaluatePolynomialHeap [SetInt 3, SetInt 5, SetInt 2, SetInt 2] [0, 1, 2] 3
        = .ok (h1, r1) ∧
      EvaluatePolynomialHeap h1 [0, 1, 2] 3 = .ok (h2, r2) ∧
      h2.getD r2 zero = h2.getD r1 zero ∧
      h2.getD r1 zero = h1.getD r1 zero ∧
      EvaluatePolynomial
          (([0, 1, 2] : List Nat).map
            (fun p => [SetInt 3, SetInt 5, SetInt 2, SetInt 2].getD p zero))
          ([SetInt 3, SetInt 5, SetInt 2, SetInt 2].getD 3 zero)
        = .ok (h2.getD r2 zero) :=
  ⟨⟨by decide, by decide, by decide⟩, by decide!,
    EvaluatePolynomial_deterministic [SetInt 3, SetInt 5, SetInt 2, SetInt 2] [0, 1, 2] 3
      (by decide) (by decide) (by decide)⟩

/-! ## Further properties of `CalculateLagrangeCoeff` -/

/-- Entries equal to `i` can be filtered out before the loop. -/
theorem foldl_lagrangeStep_filter (i : Int) (set : List Int) :
    ∀ acc : ModNScalar,
      (set.filter (fun j => j ≠ i)).foldl (lagrangeStep i) acc
        = set.foldl (lagrangeStep i) acc := by
  induction set with
  | nil => intro acc; rfl
  | cons a l ih =>
    intro acc
    by_cases h : a = i
    · subst h
      rw [List.filter_cons_of_neg (by simp), List.foldl_cons, lagrangeStep_self, ih]
    · rw [List.filter_cons_of_pos (by simpa using h), List.foldl_cons, List.foldl_cons, ih]

/-- Indices that agree modulo `2^32` are embedded as the same scalar. -/
theorem embed_add_two_pow_32 (j : Int) : embed (j + 4294967296) = embed j := by
  unfold embed uint32
  congr 1
  omega

/-- Claim C13 (order independence). For every index `i` and every two lists that are
permutations of each other, `CalculateLagrangeCoeff` returns the same coefficient. -/
theorem CalculateLagrangeCoeff_perm (i : Int) (set1 set2 : List Int)
    (h : set1.Perm set2) :
    CalculateLagrangeCoeff i set1 = CalculateLagrangeCoeff i set2 := by
  apply toZ_injective
  rw [toZ_CalculateLagrangeCoeff, toZ_CalculateLagrangeCoeff]
  exact ((h.filter _).map _).prod_eq

/-- Instance of claim C13 at `i = 1` and the lists `[1, 2, 3]`, `[3, 1, 2]`, where both
coefficients are `3`. -/
theorem CalculateLagrangeCoeff_perm_witness :
    ([1, 2, 3] : List Int).Perm [3, 1, 2] ∧
    CalculateLagrangeCoeff 1 [3, 1, 2] = SetInt 3 ∧
    CalculateLagrangeCoeff 1 [1, 2, 3] = CalculateLagrangeCoeff 1 [3, 1, 2] :=
  ⟨by decide, by decide!, CalculateLagrangeCoeff_perm 1 [1, 2, 3] [3, 1, 2] (by decide)⟩

/-- Claim C17 (index truncation to 32 bits). `CalculateLagrangeCoeff` embeds an index as the
scalar with value `index mod 2^32`, so an index in `[0, 2^32 - 1]` is embedded as itself; the
entries to skip are decided on the full `int64` values (an entry equal to `i` is skipped, any
other entry is multiplied in, whatever its embedded value); and replacing an entry `j` by
`j + 2^32`, when neither equals `i`, leaves the returned coefficient unchanged. -/
theorem CalculateLagrangeCoeff_truncation :
    (∀ j : Int, ((embed j).val : Int) = j % 4294967296) ∧
    (∀ j : Int, 0 ≤ j → j ≤ 4294967295 → ((embed j).val : Int) = j) ∧
    (∀ (i : Int) (acc : ModNScalar), lagrangeStep i acc i = acc) ∧
    (∀ (i j : Int) (acc : ModNScalar), j ≠ i → lagrangeStep i acc j
      = ModNScalar.Mul (ModNScalar.Mul acc (numerator j)) (InverseNonConst (denominator i j))) ∧
    (∀ (i j : Int) (before after : List Int), j ≠ i → j + 4294967296 ≠ i →
      CalculateLagrangeCoeff i (before ++ (j + 4294967296) :: after)
        = CalculateLagrangeCoeff i (before ++ j :: after)) := by
  have hval : ∀ j : Int, ((embed j).val : Int) = j % 4294967296 := by
    intro j
    have hlt : uint32 j < N := by
      unfold uint32 N
      omega
    show ((uint32 j % N : Nat) : Int) = j % 4294967296
    rw [Nat.mod_eq_of_lt hlt]
    unfold uint32
    omega
  refine ⟨hval, ?_, lagrangeStep_self, ?_, ?_⟩
  · intro j h0 h1
    rw [hval j]
    omega
  · intro i j acc h
    rw [lagrangeStep, if_pos h]
  · intro i j before after h1 h2
    have hstep : ∀ acc, lagrangeStep i acc (j + 4294967296) = lagrangeStep i acc j := by
      intro acc
      rw [lagrangeStep, lagrangeStep, if_pos h1, if_pos h2, numerator, numerator, denominator,
        denominator, embed_add_two_pow_32]
    rw [CalculateLagrangeCoeff, CalculateLagrangeCoeff, List.foldl_append, List.foldl_append,
      List.foldl_cons, List.foldl_cons, hstep]

/-- Instance of claim C17 at `i = 1`, with the entry `2` of `[2, 3]` replaced by `2^32 + 2`:
both coefficients are `3`. -/
theorem CalculateLagrangeCoeff_truncation_witness :
    ((0 : Int) ≤ 7 ∧ (7 : Int) ≤ 4294967295 ∧ (2 : Int) ≠ 1 ∧ (2 : Int) + 4294967296 ≠ 1) ∧
    ((embed 7).val : Int) = 7 ∧
    CalculateLagrangeCoeff 1 [4294967298, 3] = SetInt 3 ∧
    CalculateLagrangeCoeff 1 ([] ++ ((2 : Int) + 4294967296) :: [3])
      = CalculateLagrangeCoeff 1 ([] ++ (2 : Int) :: [3]) :=
  ⟨⟨by decide, by decide, by decide, by decide⟩,
    CalculateLagrangeCoeff_truncation.2.1 7 (by decide) (by decide), by decide!,
    CalculateLagrangeCoeff_truncation.2.2.2.2 1 2 [] [3] (by decide) (by decide)⟩

/-- Claim C18 (occurrences of `i` are ignored). For every index `i` and every list `set`,
`CalculateLagrangeCoeff i set` is the coefficient of `set` with every entry equal to `i`
removed; in particular any number of copies of `i` added to the list changes nothing. -/
theorem CalculateLagrangeCoeff_ignores_self (i : Int) (set : List Int) :
    CalculateLagrangeCoeff i set = CalculateLagrangeCoeff i (set.filter (fun j => j ≠ i)) ∧
    ∀ n : Nat, CalculateLagrangeCoeff i (List.replicate n i ++ set)
      = CalculateLagrangeCoeff i set := by
  constructor
  · rw [CalculateLagrangeCoeff, CalculateLagrangeCoeff, foldl_lagrangeStep_filter]
  · intro n
    rw [CalculateLagrangeCoeff, CalculateLagrangeCoeff, List.foldl_append]
    congr 1
    induction n with
    | zero => rfl
    | succ n ih => rw [List.replicate_succ, List.foldl_cons, lagrangeStep_self, ih]

/-- Claim C19 (multiplicativity over concatenation). For every index `i` and every two lists
`s` and `t`, the coefficient of `s ++ t` is the product in `Z_N` of the coefficients of `s` and
of `t`; consequently an entry repeated in the list contributes its factor once per
occurrence. -/
theorem CalculateLagrangeCoeff_append (i : Int) (s t : List Int) :
    CalculateLagrangeCoeff i (s ++ t)
      = ModNScalar.Mul (CalculateLagrangeCoeff i s) (CalculateLagrangeCoeff i t) ∧
    ∀ j : Int, CalculateLagrangeCoeff i [j, j]
      = ModNScalar.Mul (CalculateLagrangeCoeff i [j]) (CalculateLagrangeCoeff i [j]) := by
  have happ : ∀ a b : List Int, CalculateLagrangeCoeff i (a ++ b)
      = ModNScalar.Mul (CalculateLagrangeCoeff i a) (CalculateLagrangeCoeff i b) := by
    intro a b
    apply toZ_injective
    rw [toZ_Mul, toZ_CalculateLagrangeCoeff, toZ_CalculateLagrangeCoeff,
      toZ_CalculateLagrangeCoeff, List.filter_append, List.map_append, List.prod_append]
  exact ⟨happ s t, fun j => happ [j] [j]⟩

/-- Claim C20 (trivial set gives the identity). For every index `i` and every list `set`
with no entry different from `i` (the empty list, or copies of `i` only),
`CalculateLagrangeCoeff i set` is the scalar `1`. -/
theorem CalculateLagrangeCoeff_trivial (i : Int) (set : List Int) (h : ∀ j ∈ set, j = i) :
    CalculateLagrangeCoeff i set = SetInt 1 ∧ (CalculateLagrangeCoeff i set).val = 1 := by
  have hfilter : set.filter (fun j => j ≠ i) = [] := by
    rw [List.filter_eq_nil_iff]
    intro j hj
    simpa using h j hj
  have hone : CalculateLagrangeCoeff i set = SetInt 1 := by
    rw [CalculateLagrangeCoeff, ← foldl_lagrangeStep_filter, hfilter]
    rfl
  refine ⟨hone, ?_⟩
  rw [hone]
  decide

/-- Instance of claim C20 at `i = 3` and `set = [3, 3]`. -/
theorem CalculateLagrangeCoeff_trivial_witness :
    (∀ j ∈ ([3, 3] : List Int), j = 3) ∧
    CalculateLagrangeCoeff 3 [3, 3] = SetInt 1 ∧ (CalculateLagrangeCoeff 3 [3, 3]).val = 1 :=
  ⟨by decide, CalculateLagrangeCoeff_trivial 3 [3, 3] (by decide)⟩

end Testhelper
